import Mathlib

/-!
# collapse_log: event segmentation and stack-trace de-duplication

A shallow embedding of `collapse_log.go`.  Go strings are byte sequences, so a
line is a list of bytes.  The three package-level variables the core mutates
(`event`, `CACHE`, `count`) and the bytes handed to the buffered writer are the
fields of an explicit `State`; a run-time panic (an out-of-range index or
slice) is the result `none`.
-/

namespace CollapseLog

/-- A Go `string` / `[]byte`: a sequence of bytes. -/
abbrev Bytes := List UInt8

/-- The bytes of an ASCII string literal of the source. -/
def str (s : String) : Bytes := s.data.map (fun c => UInt8.ofNat c.toNat)

/-! ## Regular expressions (package `regexp`, byte input)

The three patterns of the source use only literals, ASCII classes, `+`, `{n}`
and a leading `^`.  `Regexp` is the syntax without the anchor; `Match` decides
whether some prefix of the input is in the language, which is what
`(*Regexp).Match` reports for a pattern that starts with `^`. -/

/-- Regular expressions over bytes. -/
inductive Regexp where
  | fail : Regexp
  | eps : Regexp
  | cls : (UInt8 → Bool) → Regexp
  | cat : Regexp → Regexp → Regexp
  | alt : Regexp → Regexp → Regexp
  | star : Regexp → Regexp

namespace Regexp

/-- The pattern `r+`. -/
def plus (r : Regexp) : Regexp := cat r (star r)

/-- The pattern `r{n}`. -/
def rep : Nat → Regexp → Regexp
  | 0, _ => eps
  | n + 1, r => cat r (rep n r)

/-- A literal byte. -/
def lit (b : UInt8) : Regexp := cls (fun c => c == b)

/-- Does the expression accept the empty string? -/
def nullable : Regexp → Bool
  | fail => false
  | eps => true
  | cls _ => false
  | cat a b => nullable a && nullable b
  | alt a b => nullable a || nullable b
  | star _ => true

/-- Concatenation that drops a dead or empty left factor. -/
def mkCat : Regexp → Regexp → Regexp
  | fail, _ => fail
  | eps, b => b
  | a, b => cat a b

/-- Alternation that drops a dead branch. -/
def mkAlt : Regexp → Regexp → Regexp
  | fail, b => b
  | a, fail => a
  | a, b => alt a b

/-- Brzozowski derivative: what remains to be matched after the byte `c`. -/
def deriv : Regexp → UInt8 → Regexp
  | fail, _ => fail
  | eps, _ => fail
  | cls p, c => if p c then eps else fail
  | cat a b, c =>
    if nullable a then mkAlt (mkCat (deriv a c) b) (deriv b c) else mkCat (deriv a c) b
  | alt a b, c => mkAlt (deriv a c) (deriv b c)
  | star a, c => mkCat (deriv a c) (star a)

/-- Is some prefix of the input in the language of `r`?  (`Match` of the
pattern `^r`.) -/
def Match : Regexp → Bytes → Bool
  | r, [] => nullable r
  | r, c :: cs => nullable r || Match (deriv r c) cs

end Regexp

/-- The class `\d`. -/
def isDigit (c : UInt8) : Bool := 48 ≤ c && c ≤ 57

/-- The class `\s` of RE2: tab, line feed, form feed, carriage return, space. -/
def isSpace (c : UInt8) : Bool := c == 9 || c == 10 || c == 12 || c == 13 || c == 32

/-- The range `a-z`. -/
def isLower (c : UInt8) : Bool := 97 ≤ c && c ≤ 122

/-- The range `A-Z`. -/
def isUpper (c : UInt8) : Bool := 65 ≤ c && c ≤ 90

/-- The pattern `^\[\d{4}-\d{2}-\d{2}` (line 64), without its anchor. -/
def linestart : Regexp :=
  .cat (.lit 91) (.cat (.rep 4 (.cls isDigit)) (.cat (.lit 45)
    (.cat (.rep 2 (.cls isDigit)) (.cat (.lit 45) (.rep 2 (.cls isDigit))))))

/-- Regex match that the line starts with `[YYYY-MM-dd` (lines 66-68). -/
def lineStart (line : Bytes) : Bool := linestart.Match line

/-- The pattern `^(?:[a-zA-Z0-9-]+\.)+[A-Za-z0-9$]+` (line 70), without its
anchor. -/
def javaclass : Regexp :=
  .cat
    (.plus (.cat (.plus (.cls (fun c => isLower c || isUpper c || isDigit c || c == 45)))
      (.lit 46)))
    (.plus (.cls (fun c => isUpper c || isLower c || isDigit c || c == 36)))

/-- Lines 72-74. -/
def checkJavaClass (secondline : Bytes) : Bool := javaclass.Match secondline

/-- The pattern `^\s+` (line 76), without its anchor. -/
def indentedline : Regexp := .plus (.cls isSpace)

/-- Lines 78-80. -/
def checkIndentedLine (line : Bytes) : Bool := indentedline.Match line

/-! ## The 64-bit hash (package `xxhash`)

`hashString` formats the digest of `xxhash.New64()` with `%x`.  The digest
function is a parameter `sum64` of the embedding; `XXH64` is the published
algorithm with seed 0, used where a concrete digest is needed. -/

/-- Reduction to an unsigned 64-bit value. -/
def u64 (n : Nat) : Nat := n % 2 ^ 64

/-- Rotate a 64-bit value left by `r` bits. -/
def rotl64 (x r : Nat) : Nat := u64 (x <<< r) ||| (x >>> (64 - r))

/-- Little-endian value of a byte sequence. -/
def leNat : Bytes → Nat
  | [] => 0
  | b :: bs => b.toNat + 256 * leNat bs

namespace XXH

def prime1 : Nat := 11400714785074694791
def prime2 : Nat := 14029467366897019727
def prime3 : Nat := 1609587929392839161
def prime4 : Nat := 9650029242287828579
def prime5 : Nat := 2870177450012600261

/-- One accumulator round. -/
def round (acc input : Nat) : Nat :=
  u64 (rotl64 (u64 (acc + input * prime2)) 31 * prime1)

/-- Folding one accumulator into the digest. -/
def mergeRound (h v : Nat) : Nat :=
  u64 ((h ^^^ round 0 v) * prime1 + prime4)

/-- The 32-byte stripes: four lanes of 8 bytes each.  Returns the lanes and the
unconsumed tail (fewer than 32 bytes). -/
def stripes : Nat → Bytes → Nat × Nat × Nat × Nat → (Nat × Nat × Nat × Nat) × Bytes
  | 0, p, v => (v, p)
  | n + 1, p, (v1, v2, v3, v4) =>
    if 32 ≤ p.length then
      stripes n (p.drop 32)
        (round v1 (leNat (p.take 8)), round v2 (leNat ((p.drop 8).take 8)),
         round v3 (leNat ((p.drop 16).take 8)), round v4 (leNat ((p.drop 24).take 8)))
    else ((v1, v2, v3, v4), p)

/-- The tail of fewer than 32 bytes: 8-byte words, then one 4-byte word, then
single bytes. -/
def tail : Nat → Bytes → Nat → Nat
  | 0, _, h => h
  | n + 1, p, h =>
    if 8 ≤ p.length then
      tail n (p.drop 8) (u64 (rotl64 (h ^^^ round 0 (leNat (p.take 8))) 27 * prime1 + prime4))
    else if 4 ≤ p.length then
      tail n (p.drop 4) (u64 (rotl64 (h ^^^ u64 (leNat (p.take 4) * prime1)) 23 * prime2 + prime3))
    else
      match p with
      | [] => h
      | b :: rest => tail n rest (u64 (rotl64 (h ^^^ u64 (b.toNat * prime5)) 11 * prime1))

/-- The final mixing. -/
def avalanche (h : Nat) : Nat :=
  let h := u64 ((h ^^^ (h >>> 33)) * prime2)
  let h := u64 ((h ^^^ (h >>> 29)) * prime3)
  h ^^^ (h >>> 32)

end XXH

/-- XXH64 with seed 0: the value `Sum64` returns after one `Write` of `input`
to a fresh `xxhash.New64()`. -/
def XXH64 (input : Bytes) : Nat :=
  let len := input.length
  let (h, p) :=
    if 32 ≤ len then
      let ((v1, v2, v3, v4), p) :=
        XXH.stripes len input
          (u64 (XXH.prime1 + XXH.prime2), XXH.prime2, 0, u64 (2 ^ 64 - XXH.prime1))
      let h := u64 (rotl64 v1 1 + rotl64 v2 7 + rotl64 v3 12 + rotl64 v4 18)
      (XXH.mergeRound (XXH.mergeRound (XXH.mergeRound (XXH.mergeRound h v1) v2) v3) v4, p)
    else (XXH.prime5, input)
  XXH.avalanche (XXH.tail len p (u64 (h + len)))

/-- One lowercase hexadecimal digit. -/
def hexDigit (d : Nat) : UInt8 := if d < 10 then UInt8.ofNat (48 + d) else UInt8.ofNat (87 + d)

/-- Most significant digit first, no leading zeros; `fuel` bounds the number
of digits. -/
def hexDigits : Nat → Nat → Bytes → Bytes
  | 0, _, acc => acc
  | fuel + 1, n, acc =>
    if n / 16 = 0 then hexDigit (n % 16) :: acc
    else hexDigits fuel (n / 16) (hexDigit (n % 16) :: acc)

/-- The verb `%x` of `fmt.Sprintf` applied to a `uint64`. -/
def fmtHex (n : Nat) : Bytes := hexDigits 16 (u64 n) []

/-- Lines 44-49. -/
def hashString (sum64 : Bytes → Nat) (s : Bytes) : Bytes := fmtHex (sum64 s)

/-! ## State -/

/-- The package-level variables of the core and the output sink. -/
structure State where
  /-- The variable `event`: the lines of the event being aggregated. -/
  event : List Bytes
  /-- The map `CACHE`, fingerprint to first-seen timestamp, as an association
  list with at most one entry per key. -/
  CACHE : List (Bytes × Bytes)
  /-- The map `count`; a bucket that was never written reads as 0. -/
  count : String → Int
  /-- Every byte handed to `writer.Write` so far, in order. -/
  out : Bytes

/-- The state at process start: lines 30, 39 and 42. -/
def State.init : State := { event := [], CACHE := [], count := fun _ => 0, out := [] }

/-- The map read `v, ok := m[k]`. -/
def mapLookup (m : List (Bytes × Bytes)) (k : Bytes) : Option Bytes := m.lookup k

/-- The map write `m[k] = v`. -/
def mapAssign (m : List (Bytes × Bytes)) (k v : Bytes) : List (Bytes × Bytes) :=
  (k, v) :: m.filter (fun e => !(e.1 == k))

/-- The slice expression `xs[lo:hi]`, which panics unless `lo ≤ hi ≤ len`
(the bound of a string; every slice the source takes of `event` ends at its
length). -/
def slice {α : Type} (xs : List α) (lo hi : Nat) : Option (List α) :=
  if lo ≤ hi ∧ hi ≤ xs.length then some ((xs.drop lo).take (hi - lo)) else none

/-- The call `strings.Join(e, "")`. -/
def stringsJoin (e : List Bytes) : Bytes := e.flatten

/-- Lines 32-36.  Counters are Go `int`s; they are modelled as unbounded
integers, a run adding at most the number of input lines to any of them. -/
def counter (count : String → Int) (bucket : String) (value : Int) : String → Int :=
  fun b => if b = bucket then count b + value else count b

/-- Lines 82-89, the write assumed to succeed. -/
def writeLines (e : List Bytes) (s : State) : State :=
  { s with count := counter s.count "call_write" 1, out := s.out ++ stringsJoin e }

/-- The loop of lines 114-120 over `event[2:numLines]`: `i` is the loop index,
the result is the value of `startIndex` when the loop ends. -/
def scanIndented : List Bytes → Nat → Nat → Nat
  | [], _, startIndex => startIndex
  | v :: rest, i, startIndex =>
    if checkIndentedLine v then i + 2 else scanIndented rest (i + 1) startIndex

/-- Lines 104-144. -/
def flushevent (sum64 : Bytes → Nat) (s : State) : Option State := do
  let numLines := s.event.length
  let isTrace ← (if 3 ≤ numLines then (s.event[1]?).map checkJavaClass else some false)
  if isTrace then
    let startIndex := scanIndented (← slice s.event 2 numLines) 0 2
    let key := hashString sum64 (stringsJoin (← slice s.event startIndex numLines))
    let timestamp ← slice (← s.event[0]?) 0 25
    match mapLookup s.CACHE key with
    | some val =>
      let s := { s with count := counter s.count "matched" 1 }
      let s := { s with count := counter s.count "lines_reduced" ((numLines : Int) - startIndex) }
      let StackTrace := str "StackTrace: " ++ key ++ str ", " ++ val ++ str "\n"
      pure (writeLines [← s.event[0]?, StackTrace] s)
    | none =>
      let s := { s with count := counter s.count "stacktraces" 1 }
      let s := { s with CACHE := mapAssign s.CACHE key timestamp }
      let dup := str "StackTrace: " ++ key ++ str "\n"
      pure (writeLines ([← s.event[0]?, dup] ++ (← slice s.event 1 numLines)) s)
  else if 0 < numLines then
    pure (writeLines s.event s)
  else
    pure s

/-- Lines 51-61. -/
def processLine (sum64 : Bytes → Nat) (s : State) (line : Bytes) : Option State :=
  if lineStart line then do
    let s ← flushevent sum64 s
    let s := { s with event := s.event.take 0 }
    pure { s with event := s.event ++ [line] }
  else
    pure { s with event := s.event ++ [line] }

/-- The strings that successive calls of `reader.ReadString('\n')` return, up
to and including the one that comes with `io.EOF`: `line` is the part of the
current line already read. -/
def readLines : Bytes → Bytes → List Bytes
  | [], line => [line]
  | b :: rest, line =>
    if b = 10 then (line ++ [b]) :: readLines rest [] else readLines rest (line ++ [b])

/-- `processLine` over a sequence of lines, stopping at a panic. -/
def processLines (sum64 : Bytes → Nat) (s : State) : List Bytes → Option State
  | [] => some s
  | line :: rest => (processLine sum64 s line).bind (fun s => processLines sum64 s rest)

/-- The read loop of lines 156-162 on a file with the given content: every
string `ReadString` returns goes to `processLine`, the last one included. -/
def readFile (sum64 : Bytes → Nat) (file : Bytes) (s : State) : Option State :=
  processLines sum64 s (readLines file [])

/-! ## Vocabulary of the statements

Names for the values `flushevent` computes on its way, for the events a run
hands to it, and for the sample lines the concrete statements use. -/

/-- The condition of line 112: at least three lines, and the second one has
the shape of a qualified class name. -/
def isTrace (event : List Bytes) : Bool :=
  match event with
  | _ :: l1 :: _ :: _ => checkJavaClass l1
  | _ => false

/-- The value of `startIndex` after the loop of lines 114-120. -/
def startIndex (event : List Bytes) : Nat := scanIndented (event.drop 2) 0 2

/-- The value of `key` at line 122: the hash of the lines `[startIndex, N)`. -/
def fingerprint (sum64 : Bytes → Nat) (event : List Bytes) : Bytes :=
  hashString sum64 (stringsJoin (event.drop (startIndex event)))

/-- The state `flushevent` returns on a stack-trace event with a cache hit. -/
def hitState (sum64 : Bytes → Nat) (s : State) (l0 val : Bytes) : State :=
  { s with
    count := counter (counter (counter s.count "matched" 1) "lines_reduced"
      ((s.event.length : Int) - startIndex s.event)) "call_write" 1
    out := s.out ++ stringsJoin
      [l0, str "StackTrace: " ++ fingerprint sum64 s.event ++ str ", " ++ val ++ str "\n"] }

/-- The state `flushevent` returns on a stack-trace event with a cache miss. -/
def missState (sum64 : Bytes → Nat) (s : State) (l0 : Bytes) : State :=
  { s with
    CACHE := mapAssign s.CACHE (fingerprint sum64 s.event) (l0.take 25)
    count := counter (counter s.count "stacktraces" 1) "call_write" 1
    out := s.out ++ stringsJoin
      ([l0, str "StackTrace: " ++ fingerprint sum64 s.event ++ str "\n"] ++ s.event.drop 1) }

/-- Flushing a sequence of events: each in turn is the content of the buffer
when `flushevent` is called. -/
def flushEvents (sum64 : Bytes → Nat) (s : State) : List (List Bytes) → Option State
  | [] => some s
  | ev :: evs =>
    (flushevent sum64 { s with event := ev }).bind (fun s => flushEvents sum64 s evs)

/-- The buffers that `processLine` hands to `flushevent` while it consumes the
given lines, in order, and the buffer that is left at the end; `event` is the
buffer at the start. -/
def segment : List Bytes → List Bytes → List (List Bytes) × List Bytes
  | [], event => ([], event)
  | line :: rest, event =>
    if lineStart line then ((event :: (segment rest [line]).1), (segment rest [line]).2)
    else segment rest (event ++ [line])

/-- The timestamp of the first stack-trace event of the list whose fingerprint
is `k`, if there is one. -/
def firstSeen (sum64 : Bytes → Nat) (k : Bytes) (evs : List (List Bytes)) : Option Bytes :=
  (evs.find? (fun e => isTrace e && fingerprint sum64 e == k)).map
    (fun e => (e.headD []).take 25)

/-- A header line of an error event. -/
def sampleHeader (k : Nat) : Bytes :=
  str "[2024-01-01 00:00:0" ++ [UInt8.ofNat (48 + k)] ++ str "] ERROR\n"

/-- The first line of an exception. -/
def sampleClass : Bytes := str "com.example.FooException: boom\n"

/-- A stack frame. -/
def sampleFrame : Bytes := str "    at com.example.Foo.bar(Foo.java:10)\n"

/-- A one-line event. -/
def sampleInfo : Bytes := str "[2024-01-01 00:00:00] INFO start\n"

/-- The stack-trace event of the sample with the given second digit. -/
def sampleTrace (k : Nat) : List Bytes := [sampleHeader k, sampleClass, sampleFrame]

/-- A file of three stack-trace events with the same body, then a one-line
event. -/
def sampleThreeTraces : Bytes :=
  stringsJoin (sampleTrace 1 ++ sampleTrace 2 ++ sampleTrace 3 ++ [sampleInfo])

/-- A file whose second event is classified as a stack trace and has a header
of 12 bytes. -/
def sampleShortHeader : Bytes := str "[2024-01-01\na.b\nc\n[2024-01-02\n"

/-- The input of the example scenario: a one-line event, then twice the same
stack trace, one second apart. -/
def sampleScenario : Bytes := stringsJoin ([sampleInfo] ++ sampleTrace 1 ++ sampleTrace 2)

/-- Is the byte one of `0-9`, `a-f`? -/
def isHexLower (c : UInt8) : Bool := (48 ≤ c && c ≤ 57) || (97 ≤ c && c ≤ 102)

/-- The value of a hexadecimal digit. -/
def hexVal (c : UInt8) : Nat := if c ≤ 57 then c.toNat - 48 else c.toNat - 87

/-- The number a string of hexadecimal digits denotes, most significant digit
first. -/
def hexValue (bs : Bytes) : Nat := bs.foldl (fun a c => 16 * a + hexVal c) 0

/-- Is the event, flushed after the events `seen`, a duplicate: a stack trace
whose fingerprint an earlier stack trace has? -/
def isDuplicate (sum64 : Bytes → Nat) (seen : List (List Bytes)) (ev : List Bytes) : Bool :=
  isTrace ev && (firstSeen sum64 (fingerprint sum64 ev) seen).isSome

/-- The events of the list, flushed in order after the events `seen`, that
are duplicates. -/
def duplicates (sum64 : Bytes → Nat) : List (List Bytes) → List (List Bytes) → List (List Bytes)
  | _, [] => []
  | seen, ev :: evs =>
    if isDuplicate sum64 seen ev then ev :: duplicates sum64 (seen ++ [ev]) evs
    else duplicates sum64 (seen ++ [ev]) evs

/-- A message line between the exception and its stack frames. -/
def sampleMessage : Bytes := str "while handling request 17\n"

/-- A stack-trace event with a message line before the frame. -/
def sampleLongTrace (k : Nat) : List Bytes :=
  [sampleHeader k, sampleClass, sampleMessage, sampleFrame]

/-- A file of two such events, then a one-line event. -/
def sampleLongTraces : Bytes :=
  stringsJoin (sampleLongTrace 1 ++ sampleLongTrace 2 ++ [sampleInfo])

/-- The language of a regular expression: the byte strings it matches in
full. -/
inductive Regexp.Lang : Regexp → Bytes → Prop
  | eps : Regexp.Lang .eps []
  | cls (p : UInt8 → Bool) (c : UInt8) : p c = true → Regexp.Lang (.cls p) [c]
  | cat {a b : Regexp} {u v : Bytes} :
    Regexp.Lang a u → Regexp.Lang b v → Regexp.Lang (.cat a b) (u ++ v)
  | altl {a b : Regexp} {u : Bytes} : Regexp.Lang a u → Regexp.Lang (.alt a b) u
  | altr {a b : Regexp} {u : Bytes} : Regexp.Lang b u → Regexp.Lang (.alt a b) u
  | starNil {a : Regexp} : Regexp.Lang (.star a) []
  | starCons {a : Regexp} {u v : Bytes} :
    Regexp.Lang a u → Regexp.Lang (.star a) v → Regexp.Lang (.star a) (u ++ v)

/-- The class `[a-zA-Z0-9-]` of the pattern of line 70. -/
def isSegmentByte (c : UInt8) : Bool := isLower c || isUpper c || isDigit c || c == 45

/-- The class `[A-Za-z0-9$]` of the pattern of line 70. -/
def isClassByte (c : UInt8) : Bool := isUpper c || isLower c || isDigit c || c == 36

/-! ## Auxiliary facts -/

theorem slice_to_length {α : Type} (xs : List α) (lo : Nat) (h : lo ≤ xs.length) :
    slice xs lo xs.length = some (xs.drop lo) := by
  unfold slice
  rw [if_pos ⟨h, le_refl _⟩]
  congr 1
  apply List.take_of_length_le
  simp

theorem slice_zero {α : Type} (xs : List α) (hi : Nat) :
    slice xs 0 hi = if hi ≤ xs.length then some (xs.take hi) else none := by
  unfold slice
  simp

theorem scanIndented_spec (rest : List Bytes) (i d : Nat) :
    (scanIndented rest i d = d ∧ ∀ v ∈ rest, checkIndentedLine v = false) ∨
    ∃ j v, rest[j]? = some v ∧ checkIndentedLine v = true ∧ scanIndented rest i d = i + j + 2 ∧
      ∀ j' v', j' < j → rest[j']? = some v' → checkIndentedLine v' = false := by
  induction rest generalizing i with
  | nil => left; simp [scanIndented]
  | cons v rest ih =>
    by_cases hv : checkIndentedLine v = true
    · right
      refine ⟨0, v, by simp, hv, by simp [scanIndented, hv], ?_⟩
      intro j' v' hj; omega
    · simp only [Bool.not_eq_true] at hv
      rcases ih (i + 1) with ⟨h1, h2⟩ | ⟨j, w, h1, h2, h3, h4⟩
      · left
        refine ⟨by simp [scanIndented, hv, h1], ?_⟩
        intro x hx
        rcases List.mem_cons.mp hx with rfl | hx
        · exact hv
        · exact h2 x hx
      · right
        refine ⟨j + 1, w, by simpa using h1, h2, by simp [scanIndented, hv, h3]; omega, ?_⟩
        intro j' v' hj hget
        cases j' with
        | zero => simp at hget; subst hget; exact hv
        | succ j' => exact h4 j' v' (by omega) (by simpa using hget)

theorem startIndex_bounds (l0 l1 l2 : Bytes) (rest : List Bytes) :
    2 ≤ startIndex (l0 :: l1 :: l2 :: rest) ∧
      startIndex (l0 :: l1 :: l2 :: rest) < (l0 :: l1 :: l2 :: rest).length := by
  unfold startIndex
  simp only [List.drop_succ_cons, List.drop_zero, List.length_cons]
  rcases scanIndented_spec (l2 :: rest) 0 2 with ⟨h, _⟩ | ⟨j, v, h1, _, h3, _⟩
  · omega
  · have : j < (l2 :: rest).length := by
      by_contra hc
      rw [List.getElem?_eq_none (by omega)] at h1
      cases h1
    simp only [List.length_cons] at this
    omega

/-- What `flushevent` does on an event that line 112 classifies as a stack
trace: it panics on a header of fewer than 25 bytes, and otherwise takes the
hit or the miss branch according to the cache. -/
theorem flushevent_trace (sum64 : Bytes → Nat) (s : State) (l0 l1 l2 : Bytes)
    (rest : List Bytes) (hev : s.event = l0 :: l1 :: l2 :: rest)
    (hcls : checkJavaClass l1 = true) :
    flushevent sum64 s =
      if 25 ≤ l0.length then
        match mapLookup s.CACHE (fingerprint sum64 s.event) with
        | some val => some (hitState sum64 s l0 val)
        | none => some (missState sum64 s l0)
      else none := by
  have hb := startIndex_bounds l0 l1 l2 rest
  have hlen : s.event.length = rest.length + 3 := by simp [hev]
  have h2 : slice s.event 2 s.event.length = some (s.event.drop 2) :=
    slice_to_length _ _ (by omega)
  have h1 : slice s.event 1 s.event.length = some (s.event.drop 1) :=
    slice_to_length _ _ (by omega)
  have hs : slice s.event (startIndex s.event) s.event.length
      = some (s.event.drop (startIndex s.event)) :=
    slice_to_length _ _ (by rw [hev]; omega)
  unfold flushevent
  simp only [h2, h1, Option.bind_eq_bind, Option.some_bind, Option.pure_def]
  rw [show scanIndented (List.drop 2 s.event) 0 2 = startIndex s.event from rfl, hs]
  simp only [Option.some_bind]
  rw [show hashString sum64 (stringsJoin (List.drop (startIndex s.event) s.event))
    = fingerprint sum64 s.event from rfl]
  have hge : 3 ≤ s.event.length := by omega
  simp only [hge, if_true, hev, List.getElem?_cons_succ, List.getElem?_cons_zero, Option.map_some',
    hcls, Option.some_bind, slice_zero]
  by_cases h25 : 25 ≤ l0.length
  · simp only [h25, if_true, Option.some_bind]
    cases hl : mapLookup s.CACHE (fingerprint sum64 (l0 :: l1 :: l2 :: rest)) with
    | none => simp [missState, writeLines, hev]
    | some val => simp [hitState, writeLines, hev]
  · simp [h25]

/-- What `flushevent` does on an event that line 112 does not classify as a
stack trace: nothing on the empty buffer, one verbatim write otherwise. -/
theorem flushevent_not_trace (sum64 : Bytes → Nat) (s : State)
    (hnt : isTrace s.event = false) :
    flushevent sum64 s = some (if s.event = [] then s else writeLines s.event s) := by
  unfold flushevent
  rcases hev : s.event with _ | ⟨l0, _ | ⟨l1, _ | ⟨l2, rest⟩⟩⟩
  · simp
  · simp
  · simp
  · rw [hev] at hnt
    simp only [isTrace] at hnt
    simp [hnt]

theorem mapLookup_filter_ne (m : List (Bytes × Bytes)) (k k' : Bytes) (h : k' ≠ k) :
    mapLookup (m.filter (fun e => !(e.1 == k))) k' = mapLookup m k' := by
  unfold mapLookup
  induction m with
  | nil => rfl
  | cons e m ih =>
    obtain ⟨a, b⟩ := e
    by_cases hak : a = k
    · subst hak
      have hne : (k' == a) = false := by simpa using h
      simp [List.filter_cons, List.lookup_cons, hne, ih]
    · have hf : (!(a == k)) = true := by simpa using hak
      simp only [List.filter_cons, hf, if_true, List.lookup_cons, ih]

theorem mapLookup_mapAssign (m : List (Bytes × Bytes)) (k v k' : Bytes) :
    mapLookup (mapAssign m k v) k' = if k' = k then some v else mapLookup m k' := by
  by_cases h : k' = k
  · subst h
    simp [mapAssign, mapLookup, List.lookup_cons]
  · have hne : (k' == k) = false := by simpa using h
    rw [if_neg h, ← mapLookup_filter_ne m k k' h]
    simp [mapAssign, mapLookup, List.lookup_cons, hne]

theorem counter_apply (count : String → Int) (bucket : String) (value : Int) (b : String) :
    counter count bucket value b = if b = bucket then count b + value else count b := rfl

/-! ## The emitter: `flushevent` -/

/-- C1 (non-trace passthrough).  On a non-empty buffer that has fewer than 3
lines, or whose line of index 1 fails `checkJavaClass`, `flushevent` returns; it
appends to the output exactly the concatenation of the lines of the buffer,
leaves the cache and the buffer as they are, adds 1 to `call_write` and changes
no other counter. -/
theorem flushevent_passthrough (sum64 : Bytes → Nat) (s : State) (hne : s.event ≠ [])
    (hnt : s.event.length < 3 ∨ ∃ l1, s.event[1]? = some l1 ∧ checkJavaClass l1 = false) :
    ∃ s', flushevent sum64 s = some s' ∧
      s'.out = s.out ++ stringsJoin s.event ∧
      s'.CACHE = s.CACHE ∧
      s'.event = s.event ∧
      s'.count "call_write" = s.count "call_write" + 1 ∧
      ∀ b, b ≠ "call_write" → s'.count b = s.count b := by
  have hf : isTrace s.event = false := by
    rcases hev : s.event with _ | ⟨l0, _ | ⟨l1, _ | ⟨l2, rest⟩⟩⟩
    · rfl
    · rfl
    · rfl
    · rw [hev] at hnt
      rcases hnt with h | ⟨l, h1, h2⟩
      · simp only [List.length_cons] at h
        omega
      · simp only [List.getElem?_cons_succ, List.getElem?_cons_zero, Option.some.injEq] at h1
        subst h1
        simpa [isTrace] using h2
  refine ⟨writeLines s.event s, ?_, rfl, rfl, rfl, ?_, ?_⟩
  · rw [flushevent_not_trace sum64 s hf, if_neg hne]
  · simp [writeLines, counter_apply]
  · intro b hb
    simp [writeLines, counter_apply, hb]

/-- C1 at the one-line event of the sample, from the initial state. -/
theorem flushevent_passthrough_witness :
    ({ State.init with event := [sampleInfo] } : State).event ≠ [] ∧
    ∃ s', flushevent XXH64 { State.init with event := [sampleInfo] } = some s' ∧
      s'.out = State.init.out ++ stringsJoin [sampleInfo] ∧
      s'.CACHE = State.init.CACHE ∧
      s'.event = [sampleInfo] ∧
      s'.count "call_write" = State.init.count "call_write" + 1 ∧
      ∀ b, b ≠ "call_write" → s'.count b = State.init.count b :=
  ⟨by simp, flushevent_passthrough XXH64 { State.init with event := [sampleInfo] } (by simp)
    (Or.inl (by decide))⟩

/-- C2 (cache-miss emission).  On a buffer of at least 3 lines whose line of
index 1 passes `checkJavaClass` and whose header has at least 25 bytes, when the
fingerprint of the lines `[startIndex, N)` is not a key of the cache,
`flushevent` returns; it appends the header, the line `StackTrace: <fp>` and
then the lines of index 1 to N-1; it binds the fingerprint to the first 25
bytes of the header and changes no other cache entry; it adds 1 to
`stacktraces` and to `call_write` and changes no other counter. -/
theorem flushevent_cache_miss (sum64 : Bytes → Nat) (s : State) (l0 l1 l2 : Bytes)
    (rest : List Bytes) (hev : s.event = l0 :: l1 :: l2 :: rest)
    (hcls : checkJavaClass l1 = true) (hts : 25 ≤ l0.length)
    (hmiss : mapLookup s.CACHE (fingerprint sum64 s.event) = none) :
    ∃ s', flushevent sum64 s = some s' ∧
      s'.out = s.out ++ (l0 ++ (str "StackTrace: " ++ fingerprint sum64 s.event ++ str "\n")
        ++ stringsJoin (l1 :: l2 :: rest)) ∧
      mapLookup s'.CACHE (fingerprint sum64 s.event) = some (l0.take 25) ∧
      (∀ k, k ≠ fingerprint sum64 s.event → mapLookup s'.CACHE k = mapLookup s.CACHE k) ∧
      s'.event = s.event ∧
      s'.count "stacktraces" = s.count "stacktraces" + 1 ∧
      s'.count "call_write" = s.count "call_write" + 1 ∧
      ∀ b, b ≠ "stacktraces" → b ≠ "call_write" → s'.count b = s.count b := by
  refine ⟨missState sum64 s l0, ?_, ?_, ?_, ?_, rfl, ?_, ?_, ?_⟩
  · rw [flushevent_trace sum64 s l0 l1 l2 rest hev hcls, if_pos hts, hmiss]
  · simp [missState, stringsJoin, hev]
  · simp [missState, mapLookup_mapAssign]
  · intro k hk
    simp [missState, mapLookup_mapAssign, hk]
  · simp [missState, counter_apply]
  · simp [missState, counter_apply]
  · intro b h1 h2
    simp [missState, counter_apply, h1, h2]

/-- C2 at the stack-trace event of the sample, from the initial state. -/
theorem flushevent_cache_miss_witness :
    mapLookup State.init.CACHE (fingerprint XXH64 (sampleTrace 1)) = none ∧
    ∃ s', flushevent XXH64 { State.init with event := sampleTrace 1 } = some s' ∧
      s'.out = State.init.out ++ (sampleHeader 1 ++
        (str "StackTrace: " ++ fingerprint XXH64 (sampleTrace 1) ++ str "\n")
        ++ stringsJoin [sampleClass, sampleFrame]) ∧
      mapLookup s'.CACHE (fingerprint XXH64 (sampleTrace 1)) = some ((sampleHeader 1).take 25) ∧
      (∀ k, k ≠ fingerprint XXH64 (sampleTrace 1) →
        mapLookup s'.CACHE k = mapLookup State.init.CACHE k) ∧
      s'.event = sampleTrace 1 ∧
      s'.count "stacktraces" = State.init.count "stacktraces" + 1 ∧
      s'.count "call_write" = State.init.count "call_write" + 1 ∧
      ∀ b, b ≠ "stacktraces" → b ≠ "call_write" → s'.count b = State.init.count b :=
  ⟨rfl, flushevent_cache_miss XXH64 { State.init with event := sampleTrace 1 }
    (sampleHeader 1) sampleClass sampleFrame [] rfl (by decide) (by decide) rfl⟩

/-- C3 (cache-hit emission).  On a buffer of at least 3 lines whose line of
index 1 passes `checkJavaClass` and whose header has at least 25 bytes, when the
cache binds the fingerprint of the lines `[startIndex, N)` to `ts`,
`flushevent` returns; it appends exactly the header and the line
`StackTrace: <fp>, <ts>`, so no line of index 1 or more is written; the cache
is unchanged; `matched` and `call_write` grow by 1, `lines_reduced` by
`N - startIndex`, and no other counter changes. -/
theorem flushevent_cache_hit (sum64 : Bytes → Nat) (s : State) (l0 l1 l2 ts : Bytes)
    (rest : List Bytes) (hev : s.event = l0 :: l1 :: l2 :: rest)
    (hcls : checkJavaClass l1 = true) (hts : 25 ≤ l0.length)
    (hhit : mapLookup s.CACHE (fingerprint sum64 s.event) = some ts) :
    ∃ s', flushevent sum64 s = some s' ∧
      s'.out = s.out ++ (l0 ++
        (str "StackTrace: " ++ fingerprint sum64 s.event ++ str ", " ++ ts ++ str "\n")) ∧
      s'.CACHE = s.CACHE ∧
      s'.event = s.event ∧
      s'.count "matched" = s.count "matched" + 1 ∧
      s'.count "call_write" = s.count "call_write" + 1 ∧
      s'.count "lines_reduced"
        = s.count "lines_reduced" + ((s.event.length : Int) - startIndex s.event) ∧
      ∀ b, b ≠ "matched" → b ≠ "call_write" → b ≠ "lines_reduced" →
        s'.count b = s.count b := by
  refine ⟨hitState sum64 s l0 ts, ?_, ?_, rfl, rfl, ?_, ?_, ?_, ?_⟩
  · rw [flushevent_trace sum64 s l0 l1 l2 rest hev hcls, if_pos hts, hhit]
  · simp [hitState, stringsJoin]
  · simp [hitState, counter_apply]
  · simp [hitState, counter_apply]
  · simp [hitState, counter_apply]
  · intro b h1 h2 h3
    simp [hitState, counter_apply, h1, h2, h3]

/-- C3 at the second stack-trace event of the sample, the cache holding the
entry that the first one left. -/
theorem flushevent_cache_hit_witness :
    mapLookup [(fingerprint XXH64 (sampleTrace 1), (sampleHeader 1).take 25)]
      (fingerprint XXH64 (sampleTrace 2)) = some ((sampleHeader 1).take 25) ∧
    ∃ s', flushevent XXH64 { State.init with
        event := sampleTrace 2,
        CACHE := [(fingerprint XXH64 (sampleTrace 1), (sampleHeader 1).take 25)] } = some s' ∧
      s'.out = State.init.out ++ (sampleHeader 2 ++
        (str "StackTrace: " ++ fingerprint XXH64 (sampleTrace 2) ++ str ", "
          ++ (sampleHeader 1).take 25 ++ str "\n")) ∧
      s'.CACHE = [(fingerprint XXH64 (sampleTrace 1), (sampleHeader 1).take 25)] ∧
      s'.event = sampleTrace 2 ∧
      s'.count "matched" = State.init.count "matched" + 1 ∧
      s'.count "call_write" = State.init.count "call_write" + 1 ∧
      s'.count "lines_reduced" = State.init.count "lines_reduced"
        + (((sampleTrace 2).length : Int) - startIndex (sampleTrace 2)) ∧
      ∀ b, b ≠ "matched" → b ≠ "call_write" → b ≠ "lines_reduced" →
        s'.count b = State.init.count b :=
  ⟨by decide, flushevent_cache_hit XXH64 { State.init with
        event := sampleTrace 2,
        CACHE := [(fingerprint XXH64 (sampleTrace 1), (sampleHeader 1).take 25)] }
    (sampleHeader 2) sampleClass sampleFrame ((sampleHeader 1).take 25) [] rfl
    (by decide) (by decide) (by decide)⟩

/-! ## The segmenter: `processLine` -/

theorem processLine_of_lineStart (sum64 : Bytes → Nat) (s : State) (line : Bytes)
    (h : lineStart line = true) :
    processLine sum64 s line
      = (flushevent sum64 s).map (fun s' =>
          { event := [line], CACHE := s'.CACHE, count := s'.count, out := s'.out }) := by
  unfold processLine
  rw [if_pos h]
  cases flushevent sum64 s <;> rfl

theorem processLine_of_not_lineStart (sum64 : Bytes → Nat) (s : State) (line : Bytes)
    (h : lineStart line = false) :
    processLine sum64 s line
      = some { event := s.event ++ [line], CACHE := s.CACHE, count := s.count,
               out := s.out } := by
  unfold processLine
  simp [h]

/-- C4 (segmenter step).  On a line that matches `lineStart`, `processLine`
is `flushevent` on the current buffer (a panic included) followed by the
replacement of the buffer by the one line; output, cache and counters are those
`flushevent` produced.  On any other line it appends the line to the buffer and
changes nothing else. -/
theorem processLine_step (sum64 : Bytes → Nat) (s : State) (line : Bytes) :
    (lineStart line = true →
      processLine sum64 s line
        = (flushevent sum64 s).map (fun s' =>
            { event := [line], CACHE := s'.CACHE, count := s'.count, out := s'.out })) ∧
    (lineStart line = false →
      processLine sum64 s line
        = some { event := s.event ++ [line], CACHE := s.CACHE, count := s.count,
                 out := s.out }) :=
  ⟨processLine_of_lineStart sum64 s line, processLine_of_not_lineStart sum64 s line⟩

/-! ## Runs: `processLine` over the lines of a file -/

theorem flushEvents_buffer (sum64 : Bytes → Nat) (s : State) (e fin : List Bytes)
    (evs : List (List Bytes)) :
    (flushEvents sum64 { s with event := e } evs).map (fun s' => { s' with event := fin })
      = (flushEvents sum64 s evs).map (fun s' => { s' with event := fin }) := by
  cases evs with
  | nil => rfl
  | cons ev evs => rfl

/-- A run of `processLine` is the flush, in order, of the buffers that
`segment` lists; the last buffer stays in `event` and is not flushed. -/
theorem processLines_eq_flushEvents (sum64 : Bytes → Nat) (lines : List Bytes) (s : State) :
    processLines sum64 s lines
      = (flushEvents sum64 s (segment lines s.event).1).map
          (fun s' => { s' with event := (segment lines s.event).2 }) := by
  induction lines generalizing s with
  | nil => rfl
  | cons line rest ih =>
    by_cases h : lineStart line = true
    · simp only [processLines, processLine_of_lineStart sum64 s line h, segment, h, if_true,
        flushEvents]
      cases hf : flushevent sum64 s with
      | none => rfl
      | some s1 =>
        have := ih { event := [line], CACHE := s1.CACHE, count := s1.count, out := s1.out }
        simp only [Option.map_some', Option.some_bind]
        rw [this]
        exact flushEvents_buffer sum64 s1 [line] _ _
    · simp only [Bool.not_eq_true] at h
      simp only [processLines, processLine_of_not_lineStart sum64 s line h, segment, h, Option.some_bind]
      have := ih { event := s.event ++ [line], CACHE := s.CACHE, count := s.count, out := s.out }
      rw [this]
      exact flushEvents_buffer sum64 s (s.event ++ [line]) _ _

/-- The lines of the flushed buffers followed by the lines of the buffer that
is left are the lines of the initial buffer followed by the lines read. -/
theorem segment_lines (lines event : List Bytes) :
    (segment lines event).1.flatten ++ (segment lines event).2 = event ++ lines := by
  induction lines generalizing event with
  | nil => simp [segment]
  | cons line rest ih =>
    by_cases h : lineStart line = true
    · simp [segment, h, ih [line]]
    · simp only [Bool.not_eq_true] at h
      simp [segment, h, ih (event ++ [line])]

/-- The strings `ReadString` returns are the content of the file, cut after
every line feed. -/
theorem readLines_flatten (file line : Bytes) :
    line ++ file = (readLines file line).flatten := by
  induction file generalizing line with
  | nil => simp [readLines]
  | cons b rest ih =>
    by_cases h : b = 10
    · simp [readLines, h, ← ih []]
    · simp [readLines, h, ← ih (line ++ [b])]

/-- C5 (end-of-input flush), evaluated on the file that holds the one line
`[2024-01-01 00:00:00] INFO start`: the run ends with nothing written and the
event still in the buffer, followed by the empty string that `ReadString`
returned with `io.EOF`. -/
theorem readFile_last_event_unflushed :
    (readFile XXH64 sampleInfo State.init).map (fun s => (s.out, s.event))
      = some ([], [sampleInfo, []]) := by
  decide

/-- C6 (lossless segmentation), evaluated on the file of two one-line events:
the buffers handed to `flushevent` are the empty initial buffer and the first
event only, and the output is the first line only. -/
theorem readFile_segmentation_loses_last :
    (segment (readLines (sampleInfo ++ sampleHeader 1) []) []).1 = [[], [sampleInfo]] ∧
    (readFile XXH64 (sampleInfo ++ sampleHeader 1) State.init).map (fun s => s.out)
      = some sampleInfo := by
  decide

/-! ## The cache along a run -/

theorem firstSeen_cons (sum64 : Bytes → Nat) (k : Bytes) (ev : List Bytes)
    (evs : List (List Bytes)) :
    firstSeen sum64 k (ev :: evs)
      = if isTrace ev = true ∧ fingerprint sum64 ev = k then some ((ev.headD []).take 25)
        else firstSeen sum64 k evs := by
  unfold firstSeen
  rw [List.find?_cons]
  by_cases h : isTrace ev = true ∧ fingerprint sum64 ev = k
  · have : (isTrace ev && fingerprint sum64 ev == k) = true := by simpa using h
    simp [this, h]
  · have : (isTrace ev && fingerprint sum64 ev == k) = false := by
      rw [Bool.eq_false_iff]
      simpa using h
    simp only [this, if_neg h]

theorem isTrace_cases (ev : List Bytes) (h : isTrace ev = true) :
    ∃ l0 l1 l2 rest, ev = l0 :: l1 :: l2 :: rest ∧ checkJavaClass l1 = true := by
  rcases ev with _ | ⟨l0, _ | ⟨l1, _ | ⟨l2, rest⟩⟩⟩
  · simp [isTrace] at h
  · simp [isTrace] at h
  · simp [isTrace] at h
  · exact ⟨l0, l1, l2, rest, rfl, by simpa [isTrace] using h⟩

/-- The cache after one flush: the entries it had, and for the fingerprint of
a stack-trace event that was not a key, the 25-byte prefix of its header. -/
theorem flushevent_lookup (sum64 : Bytes → Nat) (s s' : State)
    (h : flushevent sum64 s = some s') (k : Bytes) :
    mapLookup s'.CACHE k = (mapLookup s.CACHE k).or (firstSeen sum64 k [s.event]) := by
  rw [firstSeen_cons]
  by_cases ht : isTrace s.event = true
  · obtain ⟨l0, l1, l2, rest, hev, hcls⟩ := isTrace_cases _ ht
    rw [flushevent_trace sum64 s l0 l1 l2 rest hev hcls] at h
    by_cases h25 : 25 ≤ l0.length
    · rw [if_pos h25] at h
      cases hl : mapLookup s.CACHE (fingerprint sum64 s.event) with
      | some val =>
        rw [hl] at h
        simp only [Option.some.injEq] at h
        subst h
        by_cases hk : fingerprint sum64 s.event = k
        · subst hk
          simp [hitState, hl]
        · simp [hitState, hk, firstSeen]
      | none =>
        rw [hl] at h
        simp only [Option.some.injEq] at h
        subst h
        by_cases hk : fingerprint sum64 s.event = k
        · subst hk
          have hh : s.event.head?.getD [] = l0 := by rw [hev]; rfl
          simp [missState, mapLookup_mapAssign, hl, ht, hh]
        · have hk' : k ≠ fingerprint sum64 s.event := fun e => hk e.symm
          simp [missState, mapLookup_mapAssign, hk, hk', firstSeen]
    · rw [if_neg h25] at h
      cases h
  · simp only [Bool.not_eq_true] at ht
    rw [flushevent_not_trace sum64 s ht] at h
    simp only [Option.some.injEq] at h
    subst h
    have hnil : isTrace ([] : List Bytes) = false := rfl
    by_cases he : s.event = []
    · simp [he, hnil, firstSeen]
    · simp [he, ht, firstSeen, writeLines]

/-- The cache after a sequence of flushes: the entries it had at the start,
and for every other fingerprint the timestamp of the first stack-trace event
of the sequence that has it. -/
theorem flushEvents_lookup (sum64 : Bytes → Nat) (evs : List (List Bytes)) (s s' : State)
    (h : flushEvents sum64 s evs = some s') (k : Bytes) :
    mapLookup s'.CACHE k = (mapLookup s.CACHE k).or (firstSeen sum64 k evs) := by
  induction evs generalizing s with
  | nil =>
    simp only [flushEvents, Option.some.injEq] at h
    subst h
    simp [firstSeen]
  | cons ev evs ih =>
    simp only [flushEvents] at h
    cases hf : flushevent sum64 { s with event := ev } with
    | none => rw [hf] at h; cases h
    | some s1 =>
      rw [hf] at h
      simp only [Option.some_bind] at h
      rw [ih s1 h, flushevent_lookup sum64 _ s1 hf k, Option.or_assoc]
      congr 1
      rw [firstSeen_cons sum64 k ev evs, firstSeen_cons sum64 k ev []]
      by_cases hc : isTrace ev = true ∧ fingerprint sum64 ev = k
      · simp [hc]
      · simp [hc, firstSeen]

theorem flushEvents_append (sum64 : Bytes → Nat) (a b : List (List Bytes)) (s : State) :
    flushEvents sum64 s (a ++ b)
      = (flushEvents sum64 s a).bind (fun s1 => flushEvents sum64 s1 b) := by
  induction a generalizing s with
  | nil => rfl
  | cons ev a ih =>
    simp only [List.cons_append, flushEvents]
    cases flushevent sum64 { s with event := ev } with
    | none => rfl
    | some s1 => simp [ih s1]

theorem firstSeen_eq_none (sum64 : Bytes → Nat) (k : Bytes) (evs : List (List Bytes))
    (h : ∀ e ∈ evs, isTrace e = true → fingerprint sum64 e ≠ k) :
    firstSeen sum64 k evs = none := by
  unfold firstSeen
  rw [Option.map_eq_none', List.find?_eq_none]
  intro e he hp
  simp only [Bool.and_eq_true, beq_iff_eq] at hp
  exact h e he hp.1 hp.2

/-- A stack-trace event whose flush returns has a header of at least 25
bytes. -/
theorem flushevent_header (sum64 : Bytes → Nat) (s s' : State)
    (h : flushevent sum64 s = some s') (ht : isTrace s.event = true) :
    25 ≤ (s.event.headD []).length := by
  obtain ⟨l0, l1, l2, rest, hev, hcls⟩ := isTrace_cases _ ht
  rw [flushevent_trace sum64 s l0 l1 l2 rest hev hcls] at h
  by_contra hc
  rw [hev] at hc
  simp only [List.headD_cons] at hc
  rw [if_neg hc] at h
  cases h

/-- The output of the flush of a stack-trace event whose fingerprint is not a
key of the cache. -/
theorem flushevent_miss_out (sum64 : Bytes → Nat) (s s' : State)
    (h : flushevent sum64 s = some s') (ht : isTrace s.event = true)
    (hmiss : mapLookup s.CACHE (fingerprint sum64 s.event) = none) :
    s'.out = s.out ++ (s.event.headD [] ++
      (str "StackTrace: " ++ fingerprint sum64 s.event ++ str "\n")
      ++ stringsJoin (s.event.drop 1)) := by
  obtain ⟨l0, l1, l2, rest, hev, hcls⟩ := isTrace_cases _ ht
  have h25 := flushevent_header sum64 s s' h ht
  rw [flushevent_trace sum64 s l0 l1 l2 rest hev hcls] at h
  rw [hev] at h25
  simp only [List.headD_cons] at h25
  rw [if_pos h25, hmiss] at h
  simp only [Option.some.injEq] at h
  subst h
  simp [missState, stringsJoin, hev]

/-- The flush of a stack-trace event with a header of at least 25 bytes whose
fingerprint the cache binds to `ts`. -/
theorem flushevent_hit_out (sum64 : Bytes → Nat) (s : State) (ts : Bytes)
    (ht : isTrace s.event = true) (h25 : 25 ≤ (s.event.headD []).length)
    (hhit : mapLookup s.CACHE (fingerprint sum64 s.event) = some ts) :
    ∃ s', flushevent sum64 s = some s' ∧
      s'.out = s.out ++ (s.event.headD [] ++
        (str "StackTrace: " ++ fingerprint sum64 s.event ++ str ", " ++ ts ++ str "\n")) := by
  obtain ⟨l0, l1, l2, rest, hev, hcls⟩ := isTrace_cases _ ht
  rw [hev] at h25
  simp only [List.headD_cons] at h25
  refine ⟨hitState sum64 s l0 ts, ?_, ?_⟩
  · rw [flushevent_trace sum64 s l0 l1 l2 rest hev hcls, if_pos h25, hhit]
  · simp [hitState, stringsJoin, hev]

theorem flushEvents_split (sum64 : Bytes → Nat) (pre rest : List (List Bytes))
    (ev : List Bytes) (s sf : State)
    (h : flushEvents sum64 s (pre ++ ev :: rest) = some sf) :
    ∃ s1 s2, flushEvents sum64 s pre = some s1 ∧
      flushevent sum64 { s1 with event := ev } = some s2 ∧
      flushEvents sum64 s2 rest = some sf := by
  rw [flushEvents_append] at h
  cases h1 : flushEvents sum64 s pre with
  | none => rw [h1] at h; cases h
  | some s1 =>
    rw [h1] at h
    simp only [Option.some_bind, flushEvents] at h
    cases h2 : flushevent sum64 { s1 with event := ev } with
    | none => rw [h2] at h; cases h
    | some s2 =>
      rw [h2] at h
      exact ⟨s1, s2, rfl, h2, h⟩

/-- A run that returns has flushed every buffer `segment` lists, and ends in
the state of the last flush with the left-over buffer in `event`. -/
theorem processLines_flushed (sum64 : Bytes → Nat) (lines : List Bytes) (s0 s : State)
    (h : processLines sum64 s0 lines = some s) :
    ∃ sf, flushEvents sum64 s0 (segment lines s0.event).1 = some sf ∧
      s = { sf with event := (segment lines s0.event).2 } := by
  rw [processLines_eq_flushEvents] at h
  cases hf : flushEvents sum64 s0 (segment lines s0.event).1 with
  | none => rw [hf] at h; cases h
  | some sf =>
    rw [hf] at h
    simp only [Option.map_some', Option.some.injEq] at h
    exact ⟨sf, rfl, h.symm⟩

theorem fingerprint_congr (sum64 : Bytes → Nat) (e e' : List Bytes)
    (h : e.drop (startIndex e) = e'.drop (startIndex e')) :
    fingerprint sum64 e = fingerprint sum64 e' := by
  unfold fingerprint
  rw [h]

/-- The first-occurrence property over a sequence of flushes that starts with
an empty cache. -/
theorem flushEvents_first_occurrence (sum64 : Bytes → Nat) (s0 sf : State)
    (pre mid post : List (List Bytes)) (ei ej : List Bytes)
    (h0 : s0.CACHE = [])
    (hrun : flushEvents sum64 s0 (pre ++ ei :: (mid ++ ej :: post)) = some sf)
    (hi : isTrace ei = true) (hj : isTrace ej = true)
    (hfp : fingerprint sum64 ei = fingerprint sum64 ej)
    (hfirst : ∀ e ∈ pre, isTrace e = true → fingerprint sum64 e ≠ fingerprint sum64 ei) :
    ∃ s1 s2 s3 s4,
      flushEvents sum64 s0 pre = some s1 ∧
      flushevent sum64 { s1 with event := ei } = some s2 ∧
      s2.out = s1.out ++ (ei.headD [] ++
        (str "StackTrace: " ++ fingerprint sum64 ei ++ str "\n") ++ stringsJoin (ei.drop 1)) ∧
      flushEvents sum64 s2 mid = some s3 ∧
      flushevent sum64 { s3 with event := ej } = some s4 ∧
      s4.out = s3.out ++ (ej.headD [] ++
        (str "StackTrace: " ++ fingerprint sum64 ei ++ str ", " ++ (ei.headD []).take 25
          ++ str "\n")) ∧
      25 ≤ (ei.headD []).length := by
  obtain ⟨s1, s2, h1, h2, hrest⟩ := flushEvents_split sum64 pre _ ei s0 sf hrun
  obtain ⟨s3, s4, h3, h4, -⟩ := flushEvents_split sum64 mid post ej s2 sf hrest
  have hl1 : mapLookup s1.CACHE (fingerprint sum64 ei) = none := by
    rw [flushEvents_lookup sum64 pre s0 s1 h1, h0,
      firstSeen_eq_none sum64 _ pre hfirst]
    rfl
  have hl2 : mapLookup s2.CACHE (fingerprint sum64 ei) = some ((ei.headD []).take 25) := by
    rw [flushevent_lookup sum64 _ s2 h2, firstSeen_cons]
    simp [hl1, hi]
  have hl3 : mapLookup s3.CACHE (fingerprint sum64 ej) = some ((ei.headD []).take 25) := by
    rw [← hfp, flushEvents_lookup sum64 mid s2 s3 h3, hl2]
    rfl
  have h25 := flushevent_header sum64 _ s4 h4 hj
  obtain ⟨s4', h4', hout⟩ :=
    flushevent_hit_out sum64 { s3 with event := ej } _ hj h25 hl3
  rw [h4] at h4'
  simp only [Option.some.injEq] at h4'
  subst h4'
  refine ⟨s1, s2, s3, s4, h1, h2, ?_, h3, h4, ?_, flushevent_header sum64 _ s2 h2 hi⟩
  · exact flushevent_miss_out sum64 { s1 with event := ei } s2 h2 hi hl1
  · rw [hfp]
    exact hout

/-- C7, as stated, fails on three stack-trace events with the same body: for
the events of positions 2 and 3, the output of the earlier one carries a
timestamp, and the later one refers to the header of event 1, not of event 2. -/
theorem first_occurrence_counterexample :
    (segment (readLines sampleThreeTraces []) []).1
      = [[], sampleTrace 1, sampleTrace 2, sampleTrace 3] ∧
    isTrace (sampleTrace 2) = true ∧ isTrace (sampleTrace 3) = true ∧
    (sampleTrace 2).drop (startIndex (sampleTrace 2))
      = (sampleTrace 3).drop (startIndex (sampleTrace 3)) ∧
    (sampleHeader 2).take 25 = str "[2024-01-01 00:00:02] ERR" ∧
    (readFile XXH64 sampleThreeTraces State.init).map (fun s => s.out)
      = some (str ("[2024-01-01 00:00:01] ERROR\nStackTrace: 4c75e19d298913a\n"
          ++ "com.example.FooException: boom\n    at com.example.Foo.bar(Foo.java:10)\n"
          ++ "[2024-01-01 00:00:02] ERROR\n"
          ++ "StackTrace: 4c75e19d298913a, [2024-01-01 00:00:01] ERR\n"
          ++ "[2024-01-01 00:00:03] ERROR\n"
          ++ "StackTrace: 4c75e19d298913a, [2024-01-01 00:00:01] ERR\n")) := by
  refine ⟨by decide, by decide, by decide, by decide, by decide, ?_⟩
  set_option maxRecDepth 100000 in decide

/-- C7, amended (first occurrence).  In a run from the initial state that
returns, take two stack-trace events `ei`, `ej` among the flushed ones, `ei`
before `ej`, with the same trace body, such that no stack-trace event before
`ei` has the fingerprint of `ei`.  Then the flush of `ei` writes its header,
the line `StackTrace: <fp>` and its lines of index 1 and more, and the flush of
`ej` writes its header and the line `StackTrace: <fp>, <ts>`, where `ts` is the
first 25 bytes of the header of `ei`. -/
theorem first_occurrence (sum64 : Bytes → Nat) (lines : List Bytes)
    (pre mid post : List (List Bytes)) (ei ej : List Bytes)
    (hrun : (processLines sum64 State.init lines).isSome = true)
    (hseg : (segment lines []).1 = pre ++ ei :: (mid ++ ej :: post))
    (hi : isTrace ei = true) (hj : isTrace ej = true)
    (hbody : ei.drop (startIndex ei) = ej.drop (startIndex ej))
    (hfirst : ∀ e ∈ pre, isTrace e = true → fingerprint sum64 e ≠ fingerprint sum64 ei) :
    ∃ s1 s2 s3 s4,
      flushEvents sum64 State.init pre = some s1 ∧
      flushevent sum64 { s1 with event := ei } = some s2 ∧
      s2.out = s1.out ++ (ei.headD [] ++
        (str "StackTrace: " ++ fingerprint sum64 ei ++ str "\n") ++ stringsJoin (ei.drop 1)) ∧
      flushEvents sum64 s2 mid = some s3 ∧
      flushevent sum64 { s3 with event := ej } = some s4 ∧
      s4.out = s3.out ++ (ej.headD [] ++
        (str "StackTrace: " ++ fingerprint sum64 ei ++ str ", " ++ (ei.headD []).take 25
          ++ str "\n")) ∧
      25 ≤ (ei.headD []).length := by
  obtain ⟨s, hs⟩ := Option.isSome_iff_exists.mp hrun
  obtain ⟨sf, hf, -⟩ := processLines_flushed sum64 lines State.init s hs
  rw [show State.init.event = [] from rfl, hseg] at hf
  exact flushEvents_first_occurrence sum64 State.init sf pre mid post ei ej rfl hf hi hj
    (fingerprint_congr sum64 ei ej hbody) hfirst

/-- C7, amended, on two stack-trace events of the sample followed by a
one-line event. -/
theorem first_occurrence_witness :
    (processLines XXH64 State.init (sampleTrace 1 ++ sampleTrace 2 ++ [sampleInfo])).isSome
      = true ∧
    (segment (sampleTrace 1 ++ sampleTrace 2 ++ [sampleInfo]) []).1
      = [[]] ++ sampleTrace 1 :: ([] ++ sampleTrace 2 :: []) ∧
    ∃ s1 s2 s3 s4,
      flushEvents XXH64 State.init [[]] = some s1 ∧
      flushevent XXH64 { s1 with event := sampleTrace 1 } = some s2 ∧
      s2.out = s1.out ++ ((sampleTrace 1).headD [] ++
        (str "StackTrace: " ++ fingerprint XXH64 (sampleTrace 1) ++ str "\n")
        ++ stringsJoin ((sampleTrace 1).drop 1)) ∧
      flushEvents XXH64 s2 [] = some s3 ∧
      flushevent XXH64 { s3 with event := sampleTrace 2 } = some s4 ∧
      s4.out = s3.out ++ ((sampleTrace 2).headD [] ++
        (str "StackTrace: " ++ fingerprint XXH64 (sampleTrace 1) ++ str ", "
          ++ ((sampleTrace 1).headD []).take 25 ++ str "\n")) ∧
      25 ≤ ((sampleTrace 1).headD []).length :=
  ⟨by decide, by decide,
    first_occurrence XXH64 (sampleTrace 1 ++ sampleTrace 2 ++ [sampleInfo]) [[]] [] []
      (sampleTrace 1) (sampleTrace 2) (by decide) (by decide) (by decide) (by decide)
      (by decide) (by decide)⟩

/-- The earliest-occurrence property over a sequence of flushes that starts
with an empty cache. -/
theorem flushEvents_earliest (sum64 : Bytes → Nat) (s0 sf : State)
    (evs : List (List Bytes)) (k ts : Bytes) (h0 : s0.CACHE = [])
    (hrun : flushEvents sum64 s0 evs = some sf)
    (hhit : mapLookup sf.CACHE k = some ts) :
    ∃ pre first post s1 s2,
      evs = pre ++ first :: post ∧
      (∀ e ∈ pre, isTrace e = true → fingerprint sum64 e ≠ k) ∧
      isTrace first = true ∧ fingerprint sum64 first = k ∧
      25 ≤ (first.headD []).length ∧ ts = (first.headD []).take 25 ∧
      flushEvents sum64 s0 pre = some s1 ∧
      flushevent sum64 { s1 with event := first } = some s2 ∧
      s2.out = s1.out ++ (first.headD [] ++
        (str "StackTrace: " ++ k ++ str "\n") ++ stringsJoin (first.drop 1)) := by
  rw [flushEvents_lookup sum64 evs s0 sf hrun, h0] at hhit
  change firstSeen sum64 k evs = some ts at hhit
  unfold firstSeen at hhit
  obtain ⟨first, hfind, hts⟩ := Option.map_eq_some'.mp hhit
  obtain ⟨hp, pre, post, hevs, hpre⟩ := List.find?_eq_some.mp hfind
  simp only [Bool.and_eq_true, beq_iff_eq] at hp
  have hfirst : ∀ e ∈ pre, isTrace e = true → fingerprint sum64 e ≠ k := by
    intro e he ht hk
    have := hpre e he
    simp [ht, hk] at this
  subst hevs
  obtain ⟨s1, s2, h1, h2, -⟩ := flushEvents_split sum64 pre post first s0 sf hrun
  have hl1 : mapLookup s1.CACHE (fingerprint sum64 first) = none := by
    rw [flushEvents_lookup sum64 pre s0 s1 h1, h0, hp.2,
      firstSeen_eq_none sum64 _ pre hfirst]
    rfl
  have hout := flushevent_miss_out sum64 { s1 with event := first } s2 h2 hp.1 hl1
  rw [hp.2] at hout
  exact ⟨pre, first, post, s1, s2, rfl, hfirst, hp.1, hp.2,
    flushevent_header sum64 _ s2 h2 hp.1, hts.symm, h1, h2, hout⟩

/-- C8 (duplicates reference the earliest occurrence).  Take a run from the
initial state, whose cache is empty, that has reached the state `s`, and let
the buffer of `s` be a stack-trace event whose fingerprint the cache binds to
`ts`, so that its flush writes the marker `StackTrace: <fp>, <ts>`.  Then among
the events flushed before there is an earliest stack-trace event with that
fingerprint; its header has at least 25 bytes, of which `ts` is the first 25;
and its own flush wrote it in full, with the marker `StackTrace: <fp>`. -/
theorem duplicate_references_earliest (sum64 : Bytes → Nat) (lines : List Bytes)
    (s : State) (ts : Bytes)
    (hrun : processLines sum64 State.init lines = some s)
    (htrace : isTrace s.event = true)
    (hhit : mapLookup s.CACHE (fingerprint sum64 s.event) = some ts) :
    (∀ s', flushevent sum64 s = some s' →
      s'.out = s.out ++ (s.event.headD [] ++
        (str "StackTrace: " ++ fingerprint sum64 s.event ++ str ", " ++ ts ++ str "\n"))) ∧
    ∃ pre first post s1 s2,
      (segment lines []).1 = pre ++ first :: post ∧
      (∀ e ∈ pre, isTrace e = true → fingerprint sum64 e ≠ fingerprint sum64 s.event) ∧
      isTrace first = true ∧ fingerprint sum64 first = fingerprint sum64 s.event ∧
      25 ≤ (first.headD []).length ∧ ts = (first.headD []).take 25 ∧
      flushEvents sum64 State.init pre = some s1 ∧
      flushevent sum64 { s1 with event := first } = some s2 ∧
      s2.out = s1.out ++ (first.headD [] ++
        (str "StackTrace: " ++ fingerprint sum64 s.event ++ str "\n")
        ++ stringsJoin (first.drop 1)) := by
  constructor
  · intro s' hs'
    obtain ⟨t, h1, h2⟩ := flushevent_hit_out sum64 s ts htrace
      (flushevent_header sum64 s s' hs' htrace) hhit
    rw [hs'] at h1
    simp only [Option.some.injEq] at h1
    subst h1
    exact h2
  · obtain ⟨sf, hf, hs⟩ := processLines_flushed sum64 lines State.init s hrun
    have hc : s.CACHE = sf.CACHE := by rw [hs]
    rw [hc] at hhit
    exact flushEvents_earliest sum64 State.init sf _ _ ts rfl hf hhit

/-- C8 on two stack-trace events of the sample: the first one flushed, the
second one in the buffer. -/
theorem duplicate_references_earliest_witness :
    ∃ s, processLines XXH64 State.init (sampleTrace 1 ++ sampleTrace 2) = some s ∧
      isTrace s.event = true ∧
      mapLookup s.CACHE (fingerprint XXH64 s.event) = some (str "[2024-01-01 00:00:01] ERR") ∧
      (∀ s', flushevent XXH64 s = some s' →
        s'.out = s.out ++ (s.event.headD [] ++
          (str "StackTrace: " ++ fingerprint XXH64 s.event ++ str ", "
            ++ str "[2024-01-01 00:00:01] ERR" ++ str "\n"))) ∧
      ∃ pre first post s1 s2,
        (segment (sampleTrace 1 ++ sampleTrace 2) []).1 = pre ++ first :: post ∧
        (∀ e ∈ pre, isTrace e = true → fingerprint XXH64 e ≠ fingerprint XXH64 s.event) ∧
        isTrace first = true ∧ fingerprint XXH64 first = fingerprint XXH64 s.event ∧
        25 ≤ (first.headD []).length ∧
        str "[2024-01-01 00:00:01] ERR" = (first.headD []).take 25 ∧
        flushEvents XXH64 State.init pre = some s1 ∧
        flushevent XXH64 { s1 with event := first } = some s2 ∧
        s2.out = s1.out ++ (first.headD [] ++
          (str "StackTrace: " ++ fingerprint XXH64 s.event ++ str "\n")
          ++ stringsJoin (first.drop 1)) := by
  have hev : (processLines XXH64 State.init (sampleTrace 1 ++ sampleTrace 2)).map
      (fun s => (s.event, s.CACHE))
      = some (sampleTrace 2, [(fingerprint XXH64 (sampleTrace 2),
          str "[2024-01-01 00:00:01] ERR")]) := by
    decide
  cases h : processLines XXH64 State.init (sampleTrace 1 ++ sampleTrace 2) with
  | none => rw [h] at hev; cases hev
  | some s =>
    rw [h] at hev
    simp only [Option.map_some', Option.some.injEq, Prod.mk.injEq] at hev
    have ht : isTrace s.event = true := by rw [hev.1]; decide
    have hl : mapLookup s.CACHE (fingerprint XXH64 s.event)
        = some (str "[2024-01-01 00:00:01] ERR") := by
      rw [hev.1, hev.2]; decide
    exact ⟨s, rfl, ht, hl, duplicate_references_earliest XXH64 _ s _ h ht hl⟩

theorem processLine_cache (sum64 : Bytes → Nat) (s s' : State) (line : Bytes)
    (h : processLine sum64 s line = some s') :
    s'.CACHE = s.CACHE ∨ ∃ s1, flushevent sum64 s = some s1 ∧ s'.CACHE = s1.CACHE := by
  by_cases hl : lineStart line = true
  · rw [processLine_of_lineStart sum64 s line hl] at h
    cases hf : flushevent sum64 s with
    | none => rw [hf] at h; cases h
    | some s1 =>
      rw [hf] at h
      simp only [Option.map_some', Option.some.injEq] at h
      subst h
      exact Or.inr ⟨s1, rfl, rfl⟩
  · simp only [Bool.not_eq_true] at hl
    rw [processLine_of_not_lineStart sum64 s line hl] at h
    simp only [Option.some.injEq] at h
    subst h
    exact Or.inl rfl

theorem flushevent_write_once (sum64 : Bytes → Nat) (s s' : State)
    (h : flushevent sum64 s = some s') :
    (∀ k v, mapLookup s.CACHE k = some v → mapLookup s'.CACHE k = some v) ∧
    ∀ k, k ≠ fingerprint sum64 s.event → mapLookup s'.CACHE k = mapLookup s.CACHE k := by
  constructor
  · intro k v hk
    rw [flushevent_lookup sum64 s s' h k, hk]
    rfl
  · intro k hk
    rw [flushevent_lookup sum64 s s' h k, firstSeen_cons]
    have : ¬ (isTrace s.event = true ∧ fingerprint sum64 s.event = k) := fun hc => hk hc.2.symm
    rw [if_neg this]
    simp [firstSeen]

/-- C9 (cache entries are write-once).  Across a call of `flushevent`, and
across a call of `processLine`, that returns, every key of the cache keeps its
value, and there is one key outside of which every lookup is unchanged: nothing
is overwritten or removed, and at most one key is added. -/
theorem cache_write_once (sum64 : Bytes → Nat) (s s' : State) (line : Bytes)
    (h : flushevent sum64 s = some s' ∨ processLine sum64 s line = some s') :
    (∀ k v, mapLookup s.CACHE k = some v → mapLookup s'.CACHE k = some v) ∧
    ∃ k0, ∀ k, k ≠ k0 → mapLookup s'.CACHE k = mapLookup s.CACHE k := by
  have key : s'.CACHE = s.CACHE ∨ ∃ s1, flushevent sum64 s = some s1 ∧ s'.CACHE = s1.CACHE := by
    rcases h with h | h
    · exact Or.inr ⟨s', h, rfl⟩
    · exact processLine_cache sum64 s s' line h
  rcases key with hc | ⟨s1, hf, hc⟩
  · rw [hc]
    exact ⟨fun _ _ hk => hk, [], fun _ _ => rfl⟩
  · rw [hc]
    exact ⟨(flushevent_write_once sum64 s s1 hf).1, fingerprint sum64 s.event,
      (flushevent_write_once sum64 s s1 hf).2⟩

/-- C9 on a call of `processLine` that flushes a new stack trace into a cache
that holds one entry already. -/
theorem cache_write_once_witness :
    ∃ s', processLine XXH64 { State.init with
        event := sampleTrace 1, CACHE := [(str "0", str "[2024-01-01 00:00:00] INF")] }
        sampleInfo = some s' ∧
      mapLookup s'.CACHE (str "0") = some (str "[2024-01-01 00:00:00] INF") ∧
      ∃ k0, ∀ k, k ≠ k0 →
        mapLookup s'.CACHE k = mapLookup [(str "0", str "[2024-01-01 00:00:00] INF")] k := by
  have hsome : (processLine XXH64 { State.init with
        event := sampleTrace 1, CACHE := [(str "0", str "[2024-01-01 00:00:00] INF")] }
        sampleInfo).isSome = true := by decide
  obtain ⟨s', hs'⟩ := Option.isSome_iff_exists.mp hsome
  have := cache_write_once XXH64 _ s' sampleInfo (Or.inr hs')
  exact ⟨s', hs', this.1 _ _ (by decide), this.2⟩

/-! ## The classifier: `startIndex` -/

theorem startIndex_spec (l0 l1 : Bytes) (tl : List Bytes) :
    (startIndex (l0 :: l1 :: tl) = 2 ∧ ∀ v ∈ tl, checkIndentedLine v = false) ∨
    ∃ j v, tl[j]? = some v ∧ checkIndentedLine v = true ∧
      startIndex (l0 :: l1 :: tl) = j + 2 ∧
      ∀ j' v', j' < j → tl[j']? = some v' → checkIndentedLine v' = false := by
  unfold startIndex
  simp only [List.drop_succ_cons, List.drop_zero]
  rcases scanIndented_spec tl 0 2 with h | ⟨j, v, h1, h2, h3, h4⟩
  · exact Or.inl h
  · exact Or.inr ⟨j, v, h1, h2, by omega, h4⟩

theorem drop_of_getElem? {α : Type} (tl : List α) (j : Nat) (v : α) (h : tl[j]? = some v) :
    tl.drop j = v :: tl.drop (j + 1) := by
  induction tl generalizing j with
  | nil => simp at h
  | cons a tl ih =>
    cases j with
    | zero => simp at h; simp [h]
    | succ j => simpa using ih j (by simpa using h)

theorem scanIndented_skip (mid body : List Bytes) (i d : Nat)
    (h : ∀ v ∈ mid, checkIndentedLine v = false) :
    scanIndented (mid ++ body) i d = scanIndented body (i + mid.length) d := by
  induction mid generalizing i with
  | nil => rfl
  | cons m mid ih =>
    have hm : checkIndentedLine m = false := h m (List.mem_cons_self _ _)
    have := ih (i + 1) (fun v hv => h v (List.mem_cons_of_mem _ hv))
    show scanIndented (m :: (mid ++ body)) i d = _
    rw [scanIndented]
    simp only [hm, Bool.false_eq_true, if_false]
    rw [this, List.length_cons]
    congr 1
    omega

theorem scanIndented_default (tl : List Bytes) (i d : Nat)
    (h : ∀ v ∈ tl, checkIndentedLine v = false) : scanIndented tl i d = d := by
  have := scanIndented_skip tl [] i d h
  simpa [scanIndented] using this

/-- The fingerprint is that of the lines from the first indented one on,
whatever comes before it. -/
theorem fingerprint_of_indented (sum64 : Bytes → Nat) (l0 l1 b : Bytes) (mid bs : List Bytes)
    (hmid : ∀ v ∈ mid, checkIndentedLine v = false) (hb : checkIndentedLine b = true) :
    fingerprint sum64 (l0 :: l1 :: (mid ++ b :: bs))
      = hashString sum64 (stringsJoin (b :: bs)) := by
  have hs : startIndex (l0 :: l1 :: (mid ++ b :: bs)) = mid.length + 2 := by
    unfold startIndex
    simp only [List.drop_succ_cons, List.drop_zero]
    rw [scanIndented_skip mid (b :: bs) 0 2 hmid]
    simp [scanIndented, hb]
  unfold fingerprint
  rw [hs]
  simp

/-- C10 (trace-body start).  For a buffer of at least 3 lines whose line of
index 1 passes `checkJavaClass`: `2 ≤ startIndex < N`; `startIndex` is the
index of an indented line, or it is 2 and no line of index 2 or more is
indented; no line of `[2, startIndex)` is indented.  `flushevent` uses the hash
of the concatenation of the lines `[startIndex, N)` as the cache key and in the
marker, and `N - startIndex` for `lines_reduced`.  An event with another header,
another line of index 1 and other non-indented lines before the same trace body
has the same fingerprint. -/
theorem trace_body_start (sum64 : Bytes → Nat) (s : State) (l0 l1 l2 : Bytes)
    (rest : List Bytes) (hev : s.event = l0 :: l1 :: l2 :: rest)
    (hcls : checkJavaClass l1 = true) :
    (2 ≤ startIndex s.event ∧ startIndex s.event < s.event.length) ∧
    ((∃ v, s.event[startIndex s.event]? = some v ∧ checkIndentedLine v = true) ∨
      (startIndex s.event = 2 ∧
        ∀ i v, 2 ≤ i → s.event[i]? = some v → checkIndentedLine v = false)) ∧
    (∀ i v, 2 ≤ i → i < startIndex s.event → s.event[i]? = some v →
      checkIndentedLine v = false) ∧
    (25 ≤ l0.length → ∃ s', flushevent sum64 s = some s' ∧
      (mapLookup s.CACHE (hashString sum64 (stringsJoin (s.event.drop (startIndex s.event))))
          = none →
        s'.CACHE = mapAssign s.CACHE
          (hashString sum64 (stringsJoin (s.event.drop (startIndex s.event)))) (l0.take 25) ∧
        s'.out = s.out ++ (l0 ++ (str "StackTrace: "
          ++ hashString sum64 (stringsJoin (s.event.drop (startIndex s.event))) ++ str "\n")
          ++ stringsJoin (l1 :: l2 :: rest))) ∧
      (∀ ts,
        mapLookup s.CACHE (hashString sum64 (stringsJoin (s.event.drop (startIndex s.event))))
          = some ts →
        s'.count "lines_reduced"
          = s.count "lines_reduced" + ((s.event.length : Int) - startIndex s.event) ∧
        s'.out = s.out ++ (l0 ++ (str "StackTrace: "
          ++ hashString sum64 (stringsJoin (s.event.drop (startIndex s.event))) ++ str ", "
          ++ ts ++ str "\n")))) ∧
    (∀ (l0' l1' : Bytes) (mid' : List Bytes),
      (∀ v ∈ mid', checkIndentedLine v = false) →
      (mid' = [] ∨ ∃ v, s.event[startIndex s.event]? = some v ∧ checkIndentedLine v = true) →
      fingerprint sum64 (l0' :: l1' :: (mid' ++ s.event.drop (startIndex s.event)))
        = fingerprint sum64 s.event) := by
  have hspec := startIndex_spec l0 l1 (l2 :: rest)
  rw [← hev] at hspec
  have hidx : ∀ i, s.event[i + 2]? = (l2 :: rest)[i]? := by
    intro i; rw [hev]; simp
  refine ⟨by rw [hev]; exact startIndex_bounds l0 l1 l2 rest, ?_, ?_, ?_, ?_⟩
  · rcases hspec with ⟨h1, h2⟩ | ⟨j, v, h1, h2, h3, _⟩
    · right
      refine ⟨h1, ?_⟩
      intro i v hi hget
      obtain ⟨i', rfl⟩ : ∃ i', i = i' + 2 := ⟨i - 2, by omega⟩
      rw [hidx] at hget
      exact h2 v (List.getElem?_mem hget)
    · left
      exact ⟨v, by rw [h3, hidx]; exact h1, h2⟩
  · intro i v hi hlt hget
    obtain ⟨i', rfl⟩ : ∃ i', i = i' + 2 := ⟨i - 2, by omega⟩
    rw [hidx] at hget
    rcases hspec with ⟨h1, h2⟩ | ⟨j, w, _, _, h3, h4⟩
    · exact h2 v (List.getElem?_mem hget)
    · exact h4 i' v (by omega) hget
  · intro hts
    rw [flushevent_trace sum64 s l0 l1 l2 rest hev hcls, if_pos hts]
    change ∃ s', (match mapLookup s.CACHE (fingerprint sum64 s.event) with
        | some val => some (hitState sum64 s l0 val)
        | none => some (missState sum64 s l0)) = some s' ∧
      (mapLookup s.CACHE (fingerprint sum64 s.event) = none → _) ∧
      (∀ ts, mapLookup s.CACHE (fingerprint sum64 s.event) = some ts → _)
    cases hl : mapLookup s.CACHE (fingerprint sum64 s.event) with
    | none =>
      refine ⟨missState sum64 s l0, rfl, fun _ => ⟨rfl, ?_⟩, ?_⟩
      · simp [missState, stringsJoin, hev, fingerprint]
      · intro ts h
        cases h
    | some val =>
      refine ⟨hitState sum64 s l0 val, rfl, ?_, ?_⟩
      · intro h
        cases h
      intro ts h
      simp only [Option.some.injEq] at h
      subst h
      constructor
      · simp [hitState, counter_apply]
      · simp [hitState, stringsJoin, fingerprint]
  · intro l0' l1' mid' hmid hd
    rcases hspec with ⟨h1, h2⟩ | ⟨j, v, h1, h2, h3, _⟩
    · have hmid' : mid' = [] := by
        rcases hd with h | ⟨v, hv1, hv2⟩
        · exact h
        · rw [h1, hidx 0] at hv1
          have := h2 v (List.getElem?_mem hv1)
          rw [this] at hv2
          cases hv2
      subst hmid'
      have hdrop : s.event.drop (startIndex s.event) = l2 :: rest := by rw [h1, hev]; rfl
      rw [hdrop]
      unfold fingerprint
      rw [hdrop]
      have : startIndex (l0' :: l1' :: ([] ++ l2 :: rest)) = 2 := by
        unfold startIndex
        exact scanIndented_default _ 0 2 h2
      rw [this]
      rfl
    · have hdrop : s.event.drop (startIndex s.event) = v :: (l2 :: rest).drop (j + 1) := by
        rw [h3, hev]
        exact drop_of_getElem? (l2 :: rest) j v h1
      unfold fingerprint
      rw [hdrop]
      exact fingerprint_of_indented sum64 l0' l1' v mid' _ hmid h2

/-- C10 on an event of the sample with a message line before the stack
frame. -/
theorem trace_body_start_witness :
    checkJavaClass sampleClass = true ∧
    startIndex [sampleHeader 1, sampleClass, sampleInfo, sampleFrame] = 3 ∧
    (∃ v, [sampleHeader 1, sampleClass, sampleInfo, sampleFrame][3]? = some v ∧
      checkIndentedLine v = true) ∧
    (∀ i v, 2 ≤ i → i < 3 →
      [sampleHeader 1, sampleClass, sampleInfo, sampleFrame][i]? = some v →
      checkIndentedLine v = false) ∧
    fingerprint XXH64 (sampleHeader 2 :: sampleClass ::
        ([] ++ [sampleHeader 1, sampleClass, sampleInfo, sampleFrame].drop 3))
      = fingerprint XXH64 [sampleHeader 1, sampleClass, sampleInfo, sampleFrame] := by
  have h := trace_body_start XXH64
    { State.init with event := [sampleHeader 1, sampleClass, sampleInfo, sampleFrame] }
    (sampleHeader 1) sampleClass sampleInfo [sampleFrame] rfl (by decide)
  have h3 : startIndex [sampleHeader 1, sampleClass, sampleInfo, sampleFrame] = 3 := by decide
  simp only [h3] at h
  exact ⟨by decide, h3, by decide, h.2.2.1,
    h.2.2.2.2 (sampleHeader 2) sampleClass [] (by simp) (Or.inl rfl)⟩

/-! ## The empty buffer and the panic -/

/-- C11 (empty flush is a no-op).  On the empty buffer `flushevent` returns
the state it was given: nothing is written, and the cache, every counter
(`call_write` included) and the buffer are unchanged. -/
theorem flushevent_empty (sum64 : Bytes → Nat) (s : State) (h : s.event = []) :
    flushevent sum64 s = some s ∧
    ∀ s', flushevent sum64 s = some s' →
      s'.out = s.out ∧ s'.CACHE = s.CACHE ∧ s'.event = s.event ∧ ∀ b, s'.count b = s.count b := by
  have hnt : isTrace s.event = false := by rw [h]; rfl
  have hf : flushevent sum64 s = some s := by
    rw [flushevent_not_trace sum64 s hnt, if_pos h]
  refine ⟨hf, ?_⟩
  intro s' hs'
  rw [hf] at hs'
  simp only [Option.some.injEq] at hs'
  subst hs'
  exact ⟨rfl, rfl, rfl, fun _ => rfl⟩

/-- C11 at the initial state: the first flush of a run, that of the empty
sentinel event, writes nothing. -/
theorem flushevent_empty_witness :
    State.init.event = [] ∧
    flushevent XXH64 State.init = some State.init ∧
    ∀ s', flushevent XXH64 State.init = some s' →
      s'.out = State.init.out ∧ s'.CACHE = State.init.CACHE ∧ s'.event = State.init.event ∧
        ∀ b, s'.count b = State.init.count b :=
  ⟨rfl, flushevent_empty XXH64 State.init rfl⟩

/-- C19 (the one panic).  `flushevent` panics exactly on a buffer of at least
3 lines whose line of index 1 passes `checkJavaClass` and whose header has fewer
than 25 bytes; on every other buffer each index and slice is in range and it
returns.  A line of 11 bytes can match `lineStart`, and a file with such a
header makes the run panic. -/
theorem flushevent_panics_iff (sum64 : Bytes → Nat) (s : State) :
    (flushevent sum64 s = none ↔
      ∃ l0 l1 l2 rest, s.event = l0 :: l1 :: l2 :: rest ∧ checkJavaClass l1 = true ∧
        l0.length < 25) ∧
    (lineStart (str "[2024-01-01") = true ∧ (str "[2024-01-01").length = 11) ∧
    readFile sum64 sampleShortHeader State.init = none := by
  refine ⟨?_, by decide, ?_⟩
  · constructor
    · intro h
      by_cases ht : isTrace s.event = true
      · obtain ⟨l0, l1, l2, rest, hev, hcls⟩ := isTrace_cases _ ht
        refine ⟨l0, l1, l2, rest, hev, hcls, ?_⟩
        by_contra hc
        rw [flushevent_trace sum64 s l0 l1 l2 rest hev hcls, if_pos (by omega)] at h
        cases hl : mapLookup s.CACHE (fingerprint sum64 s.event) with
        | none => rw [hl] at h; cases h
        | some v => rw [hl] at h; cases h
      · simp only [Bool.not_eq_true] at ht
        rw [flushevent_not_trace sum64 s ht] at h
        cases h
    · rintro ⟨l0, l1, l2, rest, hev, hcls, hlt⟩
      rw [flushevent_trace sum64 s l0 l1 l2 rest hev hcls, if_neg (by omega)]
  · rfl

/-! ## The example scenario -/

/-- C12, as stated, fails on the 7-line input of the example: the run ends
with events 1 and 2 written and event 3 still in the buffer; and on the same
input followed by one more event, where event 3 is flushed, its marker carries
the 25 bytes `[2024-01-01 00:00:01] ERR`, not `2024-01-01 00:00:01`. -/
theorem example_scenario_counterexample :
    (readFile XXH64 sampleScenario State.init).map (fun s => (s.out, s.event))
      = some (str ("[2024-01-01 00:00:00] INFO start\n"
          ++ "[2024-01-01 00:00:01] ERROR\nStackTrace: 4c75e19d298913a\n"
          ++ "com.example.FooException: boom\n    at com.example.Foo.bar(Foo.java:10)\n"),
        sampleTrace 2 ++ [[]]) ∧
    (readFile XXH64 (sampleScenario ++ sampleInfo) State.init).map (fun s => s.out)
      = some (str ("[2024-01-01 00:00:00] INFO start\n"
          ++ "[2024-01-01 00:00:01] ERROR\nStackTrace: 4c75e19d298913a\n"
          ++ "com.example.FooException: boom\n    at com.example.Foo.bar(Foo.java:10)\n"
          ++ "[2024-01-01 00:00:02] ERROR\n"
          ++ "StackTrace: 4c75e19d298913a, [2024-01-01 00:00:01] ERR\n")) := by
  constructor
  · set_option maxRecDepth 100000 in decide
  · set_option maxRecDepth 100000 in decide

/-- C12, amended (example scenario).  On the 7-line input a run writes event 1
unchanged, then event 2 as its header, the line `StackTrace: <fpA>` and its two
body lines, `fpA` being the fingerprint of the `    at ...` line.  Event 3 is
written once it is flushed, be it by a flush of the buffer the run leaves or by
a further event in the input: as its header followed by the single line
`StackTrace: <fpA>, [2024-01-01 00:00:01] ERR`, whose timestamp is the first 25
bytes of the header of event 2; its body is dropped. -/
theorem example_scenario :
    fingerprint XXH64 (sampleTrace 1) = hashString XXH64 sampleFrame ∧
    (sampleHeader 1).take 25 = str "[2024-01-01 00:00:01] ERR" ∧
    (readFile XXH64 sampleScenario State.init).map (fun s => s.out)
      = some (sampleInfo
          ++ (sampleHeader 1 ++ (str "StackTrace: " ++ hashString XXH64 sampleFrame ++ str "\n")
            ++ sampleClass ++ sampleFrame)) ∧
    ((readFile XXH64 sampleScenario State.init).bind (flushevent XXH64)).map (fun s => s.out)
      = some (sampleInfo
          ++ (sampleHeader 1 ++ (str "StackTrace: " ++ hashString XXH64 sampleFrame ++ str "\n")
            ++ sampleClass ++ sampleFrame)
          ++ (sampleHeader 2 ++ (str "StackTrace: " ++ hashString XXH64 sampleFrame ++ str ", "
            ++ (sampleHeader 1).take 25 ++ str "\n"))) ∧
    (readFile XXH64 (sampleScenario ++ sampleInfo) State.init).map (fun s => s.out)
      = some (sampleInfo
          ++ (sampleHeader 1 ++ (str "StackTrace: " ++ hashString XXH64 sampleFrame ++ str "\n")
            ++ sampleClass ++ sampleFrame)
          ++ (sampleHeader 2 ++ (str "StackTrace: " ++ hashString XXH64 sampleFrame ++ str ", "
            ++ (sampleHeader 1).take 25 ++ str "\n"))) := by
  refine ⟨by decide, by decide, ?_, ?_, ?_⟩
  · set_option maxRecDepth 100000 in decide
  · set_option maxRecDepth 100000 in decide
  · set_option maxRecDepth 100000 in decide

/-! ## The fingerprint: `hashString` -/

theorem hexDigit_spec (d : Nat) (h : d < 16) :
    isHexLower (hexDigit d) = true ∧ hexVal (hexDigit d) = d ∧
      (hexDigit d = 48 → d = 0) := by
  interval_cases d <;> decide

theorem hexValue_append (a : Bytes) (c : UInt8) :
    hexValue (a ++ [c]) = 16 * hexValue a + hexVal c := by
  simp [hexValue, List.foldl_append]

/-- What `hexDigits` puts in front of the accumulator: the numeral of `n`
without leading zeros. -/
theorem hexDigits_spec (fuel n : Nat) (acc : Bytes) (hf : 0 < fuel) (hn : n < 16 ^ fuel) :
    ∃ D, hexDigits fuel n acc = D ++ acc ∧ 1 ≤ D.length ∧ D.length ≤ fuel ∧
      (∀ c ∈ D, isHexLower c = true) ∧ hexValue D = n ∧
      (D.head? = some 48 → D = [48]) ∧
      n < 16 ^ D.length ∧ (D.length = 1 ∨ 16 ^ (D.length - 1) ≤ n) := by
  induction fuel generalizing n acc with
  | zero => omega
  | succ fuel ih =>
    have hmod : n % 16 < 16 := Nat.mod_lt _ (by omega)
    obtain ⟨hd1, hd2, hd3⟩ := hexDigit_spec (n % 16) hmod
    by_cases hq : n / 16 = 0
    · have hlt : n < 16 := by omega
      have hmn : n % 16 = n := Nat.mod_eq_of_lt hlt
      rw [hmn] at hd1 hd2
      refine ⟨[hexDigit n], by simp [hexDigits, hq, hmn], by simp, by simp, ?_, ?_, ?_,
        by simpa using hlt, Or.inl rfl⟩
      · intro c hc
        simp only [List.mem_singleton] at hc
        subst hc
        exact hd1
      · simpa [hexValue] using hd2
      · intro h
        simp only [List.head?_cons, Option.some.injEq] at h
        rw [h]
    · have hq' : n / 16 < 16 ^ fuel := by
        rw [Nat.div_lt_iff_lt_mul (by omega)]
        rw [pow_succ] at hn
        exact hn
      have hf' : 0 < fuel := by
        rcases Nat.eq_zero_or_pos fuel with h0 | h0
        · subst h0
          simp only [pow_zero, Nat.lt_one_iff] at hq'
          exact absurd hq' hq
        · exact h0
      obtain ⟨D, h1, h2, h3, h4, h5, h6, h7, h8⟩ :=
        ih (n / 16) (hexDigit (n % 16) :: acc) hf' hq'
      refine ⟨D ++ [hexDigit (n % 16)], ?_, by simp, by simp; omega, ?_, ?_, ?_, ?_, ?_⟩
      · simp [hexDigits, hq, h1]
      · intro c hc
        rcases List.mem_append.mp hc with hc | hc
        · exact h4 c hc
        · simp only [List.mem_singleton] at hc
          subst hc
          exact hd1
      · rw [hexValue_append, h5, hd2]
        omega
      · intro hh
        exfalso
        have : D.head? = some 48 := by
          cases D with
          | nil => simp at h2
          | cons a D => simpa using hh
        have hD := h6 this
        rw [hD] at h5
        exact hq (by rw [← h5]; decide)
      · rw [List.length_append, List.length_singleton, pow_succ]
        omega
      · right
        rw [List.length_append, List.length_singleton, Nat.add_sub_cancel]
        obtain ⟨m, hm⟩ : ∃ m, D.length = m + 1 := ⟨D.length - 1, by omega⟩
        rw [hm, Nat.add_sub_cancel] at h8
        rw [hm, pow_succ]
        have h16 : 1 ≤ n / 16 := Nat.one_le_iff_ne_zero.mpr hq
        rcases h8 with h8 | h8
        · have : m = 0 := by omega
          subst this
          simp only [pow_zero]
          omega
        · omega

/-- C13, as stated, fails on the stack frame of the sample: its fingerprint
has 15 characters. -/
theorem hashString_counterexample :
    hashString XXH64 sampleFrame = str "4c75e19d298913a" ∧
    (hashString XXH64 sampleFrame).length = 15 := by
  decide

/-- C13, amended (fingerprint format).  For every input, `hashString` is the
hexadecimal numeral of the hash reduced to 64 bits, in lowercase digits and
without leading zeros: between 1 and 16 characters of `0-9a-f`, whose value is
the hash, with a leading `0` only for the hash 0; it has 16 characters exactly
when the hash is at least `2^60`. -/
theorem hashString_hex (sum64 : Bytes → Nat) (s : Bytes) :
    1 ≤ (hashString sum64 s).length ∧ (hashString sum64 s).length ≤ 16 ∧
    (∀ c ∈ hashString sum64 s, isHexLower c = true) ∧
    hexValue (hashString sum64 s) = sum64 s % 2 ^ 64 ∧
    ((hashString sum64 s).head? = some 48 → hashString sum64 s = [48]) ∧
    ((hashString sum64 s).length = 16 ↔ 2 ^ 60 ≤ sum64 s % 2 ^ 64) := by
  have hlt : u64 (sum64 s) < 16 ^ 16 := by
    unfold u64
    exact lt_of_lt_of_le (Nat.mod_lt _ (by norm_num)) (by norm_num)
  obtain ⟨D, h1, h2, h3, h4, h5, h6, h7, h8⟩ :=
    hexDigits_spec 16 (u64 (sum64 s)) [] (by norm_num) hlt
  have hD : hashString sum64 s = D := by
    simp [hashString, fmtHex, h1]
  rw [hD]
  refine ⟨h2, h3, h4, h5, h6, ?_⟩
  change D.length = 16 ↔ 2 ^ 60 ≤ u64 (sum64 s)
  constructor
  · intro hl
    rw [hl] at h8
    rcases h8 with h8 | h8
    · omega
    · norm_num at h8 ⊢
      exact h8
  · intro hge
    by_contra hl
    have hle : D.length ≤ 15 := by omega
    have : (16 : Nat) ^ D.length ≤ 16 ^ 15 := Nat.pow_le_pow_right (by norm_num) hle
    norm_num at this hge
    omega

/-! ## The counters along a run -/

theorem filter_of_lookup_none (m : List (Bytes × Bytes)) (k : Bytes)
    (h : mapLookup m k = none) :
    m.filter (fun e => !(e.1 == k)) = m ∧ k ∉ m.map Prod.fst := by
  unfold mapLookup at h
  induction m with
  | nil => simp
  | cons e m ih =>
    obtain ⟨a, b⟩ := e
    rw [List.lookup_cons] at h
    by_cases hk : (k == a) = true
    · rw [hk] at h
      cases h
    · simp only [Bool.not_eq_true] at hk
      rw [hk] at h
      have hne : k ≠ a := by simpa using hk
      have hne' : (a == k) = false := by simpa using fun e : a = k => hne e.symm
      obtain ⟨h1, h2⟩ := ih h
      constructor
      · simp [List.filter_cons, hne', h1]
      · simp only [List.map_cons, List.mem_cons, not_or]
        exact ⟨hne, h2⟩

/-- The effect of one flush on the counters and on the cache, by the branch
taken. -/
theorem flushevent_delta (sum64 : Bytes → Nat) (s s' : State)
    (h : flushevent sum64 s = some s') :
    s'.count "call_write" = s.count "call_write" + (if s.event = [] then 0 else 1) ∧
    s'.count "matched" = s.count "matched"
      + (if isTrace s.event = true
          ∧ (mapLookup s.CACHE (fingerprint sum64 s.event)).isSome = true then 1 else 0) ∧
    s'.count "lines_reduced" = s.count "lines_reduced"
      + (if isTrace s.event = true
          ∧ (mapLookup s.CACHE (fingerprint sum64 s.event)).isSome = true
        then (s.event.length : Int) - startIndex s.event else 0) ∧
    s'.count "stacktraces" = s.count "stacktraces"
      + (if isTrace s.event = true
          ∧ (mapLookup s.CACHE (fingerprint sum64 s.event)).isSome = false then 1 else 0) ∧
    (∀ b, b ≠ "call_write" → b ≠ "matched" → b ≠ "lines_reduced" → b ≠ "stacktraces" →
      s'.count b = s.count b) ∧
    s'.CACHE = (if isTrace s.event = true
          ∧ (mapLookup s.CACHE (fingerprint sum64 s.event)).isSome = false
        then (fingerprint sum64 s.event, (s.event.headD []).take 25) :: s.CACHE
        else s.CACHE) := by
  by_cases ht : isTrace s.event = true
  · obtain ⟨l0, l1, l2, rest, hev, hcls⟩ := isTrace_cases _ ht
    have hne : s.event ≠ [] := by rw [hev]; simp
    have hh : s.event.headD [] = l0 := by rw [hev]; rfl
    rw [flushevent_trace sum64 s l0 l1 l2 rest hev hcls] at h
    by_cases h25 : 25 ≤ l0.length
    · rw [if_pos h25] at h
      cases hl : mapLookup s.CACHE (fingerprint sum64 s.event) with
      | some val =>
        rw [hl] at h
        simp only [Option.some.injEq] at h
        subst h
        refine ⟨?_, ?_, ?_, ?_, ?_, ?_⟩
        · simp [hitState, counter_apply, hne]
        · simp [hitState, counter_apply, ht]
        · simp [hitState, counter_apply, ht]
        · simp [hitState, counter_apply]
        · intro b h1 h2 h3 h4
          simp [hitState, counter_apply, h1, h2, h3]
        · simp [hitState]
      | none =>
        rw [hl] at h
        simp only [Option.some.injEq] at h
        subst h
        refine ⟨?_, ?_, ?_, ?_, ?_, ?_⟩
        · simp [missState, counter_apply, hne]
        · simp [missState, counter_apply]
        · simp [missState, counter_apply]
        · simp [missState, counter_apply, ht]
        · intro b h1 h2 h3 h4
          simp [missState, counter_apply, h1, h4]
        · simp only [missState, ht, Option.isSome_none, and_self, if_true, hh, mapAssign,
            (filter_of_lookup_none _ _ hl).1]
    · rw [if_neg h25] at h
      cases h
  · simp only [Bool.not_eq_true] at ht
    rw [flushevent_not_trace sum64 s ht] at h
    simp only [Option.some.injEq] at h
    subst h
    by_cases he : s.event = []
    · have hnil : isTrace ([] : List Bytes) = false := rfl
      simp [he, hnil]
    · refine ⟨?_, ?_, ?_, ?_, ?_, ?_⟩
      · simp [he, writeLines, counter_apply]
      · simp [he, ht, writeLines, counter_apply]
      · simp [he, ht, writeLines, counter_apply]
      · simp [he, ht, writeLines, counter_apply]
      · intro b h1 h2 h3 h4
        simp [he, writeLines, counter_apply, h1]
      · simp [he, ht, writeLines]

theorem firstSeen_append_singleton (sum64 : Bytes → Nat) (k : Bytes)
    (seen : List (List Bytes)) (ev : List Bytes) :
    firstSeen sum64 k (seen ++ [ev]) = (firstSeen sum64 k seen).or (firstSeen sum64 k [ev]) := by
  induction seen with
  | nil => simp [firstSeen]
  | cons e seen ih =>
    rw [List.cons_append, firstSeen_cons, firstSeen_cons, ih]
    by_cases hc : isTrace e = true ∧ fingerprint sum64 e = k
    · simp [hc]
    · simp [hc]

/-- The counters and the keys of the cache after a sequence of flushes, from a
state whose cache holds what the events `seen` left. -/
theorem flushEvents_counts (sum64 : Bytes → Nat) (evs seen : List (List Bytes))
    (s0 s : State) (hc : ∀ k, mapLookup s0.CACHE k = firstSeen sum64 k seen)
    (hrun : flushEvents sum64 s0 evs = some s) :
    s.count "call_write"
      = s0.count "call_write" + ((evs.filter (fun ev => !ev.isEmpty)).length : Int) ∧
    s.count "matched" = s0.count "matched" + ((duplicates sum64 seen evs).length : Int) ∧
    s.count "lines_reduced" = s0.count "lines_reduced"
      + ((duplicates sum64 seen evs).map
          (fun ev => (ev.length : Int) - startIndex ev)).sum ∧
    s.count "stacktraces" + ((duplicates sum64 seen evs).length : Int)
      = s0.count "stacktraces" + ((evs.filter isTrace).length : Int) ∧
    ((s.CACHE.map Prod.fst).length : Int) - s.count "stacktraces"
      = ((s0.CACHE.map Prod.fst).length : Int) - s0.count "stacktraces" ∧
    ((s0.CACHE.map Prod.fst).Nodup → (s.CACHE.map Prod.fst).Nodup) := by
  induction evs generalizing seen s0 with
  | nil =>
    simp only [flushEvents, Option.some.injEq] at hrun
    subst hrun
    simp [duplicates]
  | cons ev evs ih =>
    simp only [flushEvents] at hrun
    cases hf : flushevent sum64 { s0 with event := ev } with
    | none => rw [hf] at hrun; cases hrun
    | some s1 =>
      rw [hf] at hrun
      simp only [Option.some_bind] at hrun
      have hc1 : ∀ k, mapLookup s1.CACHE k = firstSeen sum64 k (seen ++ [ev]) := by
        intro k
        rw [flushevent_lookup sum64 _ s1 hf k, firstSeen_append_singleton]
        exact congrArg (fun o => Option.or o _) (hc k)
      obtain ⟨i1, i2, i3, i4, i5, i6⟩ := ih (seen ++ [ev]) s1 hc1 hrun
      obtain ⟨d1, d2, d3, d4, -, d6⟩ := flushevent_delta sum64 _ s1 hf
      simp only [] at d1 d2 d3 d4 d6
      have hdup : isDuplicate sum64 seen ev
          = (isTrace ev && (mapLookup s0.CACHE (fingerprint sum64 ev)).isSome) := by
        unfold isDuplicate
        rw [hc]
      have hnil : isTrace ev = true → ev ≠ [] := by
        intro ht he
        rw [he] at ht
        cases ht
      by_cases ht : isTrace ev = true
      · have hne := hnil ht
        have hemp : ev.isEmpty = false := by
          cases ev with
          | nil => exact absurd rfl hne
          | cons a b => rfl
        cases hl : mapLookup s0.CACHE (fingerprint sum64 ev) with
        | some val =>
          have hd : isDuplicate sum64 seen ev = true := by rw [hdup, ht, hl]; rfl
          simp only [ht, hl, hne, Option.isSome_some, and_self, if_true, if_false,
            Bool.true_eq_false, and_false] at d1 d2 d3 d4 d6
          simp only [duplicates, hd, if_true, List.length_cons, List.map_cons, List.sum_cons,
            List.filter_cons, ht, hemp, Bool.not_false, Nat.cast_add, Nat.cast_one]
          rw [d6] at i5 i6
          refine ⟨by omega, by omega, by omega, by omega, by omega, i6⟩
        | none =>
          have hd : isDuplicate sum64 seen ev = false := by rw [hdup, ht, hl]; rfl
          simp only [ht, hl, hne, Option.isSome_none, and_self, if_true, if_false,
            Bool.false_eq_true, and_false] at d1 d2 d3 d4 d6
          simp only [duplicates, hd, Bool.false_eq_true, if_false, List.length_cons,
            List.filter_cons, ht, hemp, Bool.not_false, if_true, Nat.cast_add, Nat.cast_one]
          rw [d6] at i5 i6
          simp only [List.map_cons, List.length_cons, Nat.cast_add, Nat.cast_one] at i5
          refine ⟨by omega, by omega, by omega, by omega, by omega, ?_⟩
          intro hnd
          apply i6
          simp only [List.map_cons, List.nodup_cons]
          exact ⟨(filter_of_lookup_none _ _ hl).2, hnd⟩
      · simp only [Bool.not_eq_true] at ht
        have hd : isDuplicate sum64 seen ev = false := by rw [hdup, ht]; rfl
        simp only [ht, Bool.false_eq_true, false_and, if_false, add_zero] at d1 d2 d3 d4 d6
        rw [d6] at i5 i6
        by_cases he : ev = []
        · subst he
          simp only [if_true, add_zero] at d1
          simp only [duplicates, hd, Bool.false_eq_true, if_false, List.filter_cons, ht,
            List.isEmpty_nil, Bool.not_true]
          exact ⟨by omega, by omega, by omega, by omega, by omega, i6⟩
        · have hemp : ev.isEmpty = false := by
            cases ev with
            | nil => exact absurd rfl he
            | cons a b => rfl
          simp only [he, if_false] at d1
          simp only [duplicates, hd, Bool.false_eq_true, if_false, List.filter_cons, ht,
            hemp, Bool.not_false, if_true, List.length_cons, Nat.cast_add, Nat.cast_one]
          exact ⟨by omega, by omega, by omega, by omega, by omega, i6⟩
theorem duplicates_mem (sum64 : Bytes → Nat) (evs seen : List (List Bytes)) :
    ∀ ev ∈ duplicates sum64 seen evs, isTrace ev = true ∧ ev ∈ evs := by
  induction evs generalizing seen with
  | nil => simp [duplicates]
  | cons e evs ih =>
    intro ev hev
    simp only [duplicates] at hev
    by_cases hd : isDuplicate sum64 seen e = true
    · rw [if_pos hd] at hev
      rcases List.mem_cons.mp hev with rfl | hev
      · refine ⟨?_, List.mem_cons_self _ _⟩
        simp only [isDuplicate, Bool.and_eq_true] at hd
        exact hd.1
      · exact ⟨(ih _ ev hev).1, List.mem_cons_of_mem _ (ih _ ev hev).2⟩
    · rw [if_neg hd] at hev
      exact ⟨(ih _ ev hev).1, List.mem_cons_of_mem _ (ih _ ev hev).2⟩

theorem startIndex_of_isTrace (ev : List Bytes) (h : isTrace ev = true) :
    2 ≤ startIndex ev ∧ startIndex ev < ev.length := by
  obtain ⟨l0, l1, l2, rest, hev, -⟩ := isTrace_cases _ h
  rw [hev]
  exact startIndex_bounds l0 l1 l2 rest

theorem filter_nonempty_length (evs : List (List Bytes)) :
    (evs.filter (fun ev => !ev.isEmpty)).length
      = (evs.filter isTrace).length
        + (evs.filter (fun ev => !ev.isEmpty && !isTrace ev)).length := by
  induction evs with
  | nil => rfl
  | cons ev evs ih =>
    by_cases ht : isTrace ev = true
    · have hemp : ev.isEmpty = false := by
        cases ev with
        | nil => cases ht
        | cons a b => rfl
      simp only [List.filter_cons, ht, hemp, Bool.not_false, Bool.not_true, Bool.and_false,
        if_true, Bool.false_eq_true, if_false, List.length_cons, ih]
      omega
    · simp only [Bool.not_eq_true] at ht
      cases hemp : ev.isEmpty with
      | true =>
        simp only [List.filter_cons, ht, hemp, Bool.not_true, Bool.false_and,
          Bool.false_eq_true, if_false, ih]
      | false =>
        simp only [List.filter_cons, ht, hemp, Bool.not_false, Bool.and_self, if_true,
          Bool.false_eq_true, if_false, List.length_cons, ih]
        omega

theorem flushevent_count_mono (sum64 : Bytes → Nat) (s s' : State)
    (h : flushevent sum64 s = some s') (b : String) : s.count b ≤ s'.count b := by
  obtain ⟨d1, d2, d3, d4, d5, -⟩ := flushevent_delta sum64 s s' h
  by_cases h1 : b = "call_write"
  · subst h1
    rw [d1]
    split <;> omega
  by_cases h2 : b = "matched"
  · subst h2
    rw [d2]
    split <;> omega
  by_cases h3 : b = "lines_reduced"
  · subst h3
    rw [d3]
    split
    · rename_i hc
      have := startIndex_of_isTrace _ hc.1
      omega
    · omega
  by_cases h4 : b = "stacktraces"
  · subst h4
    rw [d4]
    split <;> omega
  rw [d5 b h1 h2 h3 h4]

theorem processLine_count_mono (sum64 : Bytes → Nat) (s s' : State) (line : Bytes)
    (h : processLine sum64 s line = some s') (b : String) : s.count b ≤ s'.count b := by
  by_cases hl : lineStart line = true
  · rw [processLine_of_lineStart sum64 s line hl] at h
    cases hf : flushevent sum64 s with
    | none => rw [hf] at h; cases h
    | some s1 =>
      rw [hf] at h
      simp only [Option.map_some', Option.some.injEq] at h
      subst h
      exact flushevent_count_mono sum64 s s1 hf b
  · simp only [Bool.not_eq_true] at hl
    rw [processLine_of_not_lineStart sum64 s line hl] at h
    simp only [Option.some.injEq] at h
    subst h
    exact le_refl _

/-- The counters and the keys of the cache at the end of a run from the
initial state. -/
theorem processLines_counts (sum64 : Bytes → Nat) (lines : List Bytes) (s : State)
    (hrun : processLines sum64 State.init lines = some s) :
    s.count "call_write"
      = (((segment lines []).1.filter (fun ev => !ev.isEmpty)).length : Int) ∧
    s.count "matched" = ((duplicates sum64 [] (segment lines []).1).length : Int) ∧
    s.count "lines_reduced"
      = ((duplicates sum64 [] (segment lines []).1).map
          (fun ev => (ev.length : Int) - startIndex ev)).sum ∧
    s.count "stacktraces" + ((duplicates sum64 [] (segment lines []).1).length : Int)
      = (((segment lines []).1.filter isTrace).length : Int) ∧
    ((s.CACHE.map Prod.fst).length : Int) = s.count "stacktraces" ∧
    (s.CACHE.map Prod.fst).Nodup := by
  obtain ⟨sf, hf, hs⟩ := processLines_flushed sum64 lines State.init s hrun
  have hcount : s.count = sf.count := by rw [hs]
  have hcache : s.CACHE = sf.CACHE := by rw [hs]
  obtain ⟨i1, i2, i3, i4, i5, i6⟩ :=
    flushEvents_counts sum64 (segment lines State.init.event).1 [] State.init sf
      (fun _ => rfl) hf
  rw [hcount, hcache]
  have z : ∀ b, State.init.count b = 0 := fun _ => rfl
  rw [z] at i1 i2 i3 i4 i5
  have hi : State.init.event = [] := rfl
  rw [hi] at i1 i2 i3 i4
  have hl : ((State.init.CACHE.map Prod.fst).length : Int) = 0 := rfl
  rw [hl] at i5
  refine ⟨by omega, by omega, by omega, by omega, by omega, i6 ?_⟩
  exact List.nodup_nil

/-- C14, as stated, fails on two identical stack traces with a message line
before the frame: the duplicate has 4 input lines and 2 output lines, and
`lines_reduced` ends at 1. -/
theorem lines_reduced_counterexample :
    duplicates XXH64 [] (segment (readLines sampleLongTraces []) []).1 = [sampleLongTrace 2] ∧
    (sampleLongTrace 2).length = 4 ∧
    (readFile XXH64 sampleLongTraces State.init).map
        (fun s => (s.count "lines_reduced", s.out))
      = some (1, str ("[2024-01-01 00:00:01] ERROR\nStackTrace: 4c75e19d298913a\n"
          ++ "com.example.FooException: boom\nwhile handling request 17\n"
          ++ "    at com.example.Foo.bar(Foo.java:10)\n"
          ++ "[2024-01-01 00:00:02] ERROR\n"
          ++ "StackTrace: 4c75e19d298913a, [2024-01-01 00:00:01] ERR\n")) := by
  refine ⟨?_, by decide, ?_⟩
  · set_option maxRecDepth 100000 in decide
  · set_option maxRecDepth 100000 in decide

/-- C14, amended (`lines_reduced` accounting).  At the end of a run from the
initial state, `lines_reduced` is the sum, over the flushed events that were
written as duplicates, of `N - startIndex`, the number of lines of the trace
body; for each of them `2 ≤ startIndex < N`. -/
theorem lines_reduced_accounting (sum64 : Bytes → Nat) (lines : List Bytes) (s : State)
    (hrun : processLines sum64 State.init lines = some s) :
    s.count "lines_reduced"
      = ((duplicates sum64 [] (segment lines []).1).map
          (fun ev => (ev.length : Int) - startIndex ev)).sum ∧
    ∀ ev ∈ duplicates sum64 [] (segment lines []).1,
      2 ≤ startIndex ev ∧ startIndex ev < ev.length :=
  ⟨(processLines_counts sum64 lines s hrun).2.2.1,
    fun ev hev => startIndex_of_isTrace ev (duplicates_mem sum64 _ _ ev hev).1⟩

/-- C14, amended, on the two stack traces with a message line followed by a
one-line event. -/
theorem lines_reduced_accounting_witness :
    ∃ s, processLines XXH64 State.init
        (sampleLongTrace 1 ++ sampleLongTrace 2 ++ [sampleInfo]) = some s ∧
      s.count "lines_reduced"
        = ((duplicates XXH64 []
            (segment (sampleLongTrace 1 ++ sampleLongTrace 2 ++ [sampleInfo]) []).1).map
            (fun ev => (ev.length : Int) - startIndex ev)).sum ∧
      ∀ ev ∈ duplicates XXH64 []
          (segment (sampleLongTrace 1 ++ sampleLongTrace 2 ++ [sampleInfo]) []).1,
        2 ≤ startIndex ev ∧ startIndex ev < ev.length := by
  have hsome : (processLines XXH64 State.init
      (sampleLongTrace 1 ++ sampleLongTrace 2 ++ [sampleInfo])).isSome = true := by
    set_option maxRecDepth 100000 in decide
  obtain ⟨s, hs⟩ := Option.isSome_iff_exists.mp hsome
  exact ⟨s, hs, lines_reduced_accounting XXH64 _ s hs⟩

/-- C15 (event-count consistency).  In a state a run from the initial state
has reached, `stacktraces` plus the number of non-trace events written equals
`call_write - matched`; `call_write` is the number of non-empty events flushed
and `matched` the number of duplicates among them; and no counter decreases
across a further call of `processLine`. -/
theorem counter_consistency (sum64 : Bytes → Nat) (lines : List Bytes) (s : State)
    (hrun : processLines sum64 State.init lines = some s) :
    s.count "stacktraces"
        + (((segment lines []).1.filter (fun ev => !ev.isEmpty && !isTrace ev)).length : Int)
      = s.count "call_write" - s.count "matched" ∧
    s.count "call_write"
      = (((segment lines []).1.filter (fun ev => !ev.isEmpty)).length : Int) ∧
    s.count "matched" = ((duplicates sum64 [] (segment lines []).1).length : Int) ∧
    ∀ line s', processLine sum64 s line = some s' → ∀ b, s.count b ≤ s'.count b := by
  obtain ⟨i1, i2, -, i4, -, -⟩ := processLines_counts sum64 lines s hrun
  have hp := filter_nonempty_length (segment lines []).1
  refine ⟨by omega, i1, i2, ?_⟩
  intro line s' h b
  exact processLine_count_mono sum64 s s' line h b

/-- C15 on the file of three stack traces and a one-line event, cut before
its last line. -/
theorem counter_consistency_witness :
    ∃ s, processLines XXH64 State.init
        ([sampleInfo] ++ sampleTrace 1 ++ sampleTrace 2 ++ sampleTrace 3) = some s ∧
      s.count "stacktraces" = 1 ∧ s.count "call_write" = 3 ∧ s.count "matched" = 1 ∧
      s.count "stacktraces"
          + (((segment ([sampleInfo] ++ sampleTrace 1 ++ sampleTrace 2 ++ sampleTrace 3) []).1.filter
              (fun ev => !ev.isEmpty && !isTrace ev)).length : Int)
        = s.count "call_write" - s.count "matched" ∧
      ∀ line s', processLine XXH64 s line = some s' → ∀ b, s.count b ≤ s'.count b := by
  have hv : (processLines XXH64 State.init
      ([sampleInfo] ++ sampleTrace 1 ++ sampleTrace 2 ++ sampleTrace 3)).map
        (fun s => (s.count "stacktraces", s.count "call_write", s.count "matched"))
      = some (1, 3, 1) := by
    set_option maxRecDepth 100000 in decide
  cases hs : processLines XXH64 State.init
      ([sampleInfo] ++ sampleTrace 1 ++ sampleTrace 2 ++ sampleTrace 3) with
  | none => rw [hs] at hv; cases hv
  | some s =>
    rw [hs] at hv
    simp only [Option.map_some', Option.some.injEq, Prod.mk.injEq] at hv
    have h := counter_consistency XXH64 _ s hs
    exact ⟨s, rfl, hv.1, hv.2.1, hv.2.2, h.1, h.2.2.2⟩

theorem mapLookup_of_mem (m : List (Bytes × Bytes)) (hnd : (m.map Prod.fst).Nodup)
    (e : Bytes × Bytes) (he : e ∈ m) : mapLookup m e.1 = some e.2 := by
  unfold mapLookup
  induction m with
  | nil => cases he
  | cons a m ih =>
    obtain ⟨k, v⟩ := a
    simp only [List.map_cons, List.nodup_cons] at hnd
    rw [List.lookup_cons]
    rcases List.mem_cons.mp he with rfl | he
    · simp
    · have hne : e.1 ≠ k := by
        intro hk
        exact hnd.1 (hk ▸ List.mem_map_of_mem Prod.fst he)
      have : (e.1 == k) = false := by simpa using hne
      rw [this]
      exact ih hnd.2 he

/-- C20 (cache invariant).  In a state a run from the initial state has
reached, the keys of the cache are pairwise distinct and their number is the
counter `stacktraces`; every value stored has exactly 25 bytes and is the
25-byte prefix of the header of a flushed stack-trace event whose fingerprint
is its key. -/
theorem cache_invariant (sum64 : Bytes → Nat) (lines : List Bytes) (s : State)
    (hrun : processLines sum64 State.init lines = some s) :
    (s.CACHE.map Prod.fst).Nodup ∧
    ((s.CACHE.map Prod.fst).length : Int) = s.count "stacktraces" ∧
    ∀ e ∈ s.CACHE, e.2.length = 25 ∧
      ∃ ev ∈ (segment lines []).1, isTrace ev = true ∧ fingerprint sum64 ev = e.1 ∧
        e.2 = (ev.headD []).take 25 := by
  obtain ⟨-, -, -, -, i5, i6⟩ := processLines_counts sum64 lines s hrun
  refine ⟨i6, i5, ?_⟩
  intro e he
  have hl := mapLookup_of_mem s.CACHE i6 e he
  obtain ⟨sf, hf, hs⟩ := processLines_flushed sum64 lines State.init s hrun
  have hcache : s.CACHE = sf.CACHE := by rw [hs]
  rw [hcache] at hl
  obtain ⟨pre, first, post, s1, s2, hevs, -, ht, hfp, h25, hts, -, -, -⟩ :=
    flushEvents_earliest sum64 State.init sf _ e.1 e.2 rfl hf hl
  constructor
  · rw [hts, List.length_take]
    omega
  · refine ⟨first, ?_, ht, hfp, hts⟩
    rw [show State.init.event = [] from rfl] at hevs
    rw [hevs]
    simp

/-- C20 on two stack traces of the sample followed by a one-line event. -/
theorem cache_invariant_witness :
    ∃ s, processLines XXH64 State.init (sampleTrace 1 ++ sampleTrace 2 ++ [sampleInfo])
        = some s ∧
      s.CACHE = [(fingerprint XXH64 (sampleTrace 1), str "[2024-01-01 00:00:01] ERR")] ∧
      (s.CACHE.map Prod.fst).Nodup ∧
      ((s.CACHE.map Prod.fst).length : Int) = s.count "stacktraces" ∧
      ∀ e ∈ s.CACHE, e.2.length = 25 ∧
        ∃ ev ∈ (segment (sampleTrace 1 ++ sampleTrace 2 ++ [sampleInfo]) []).1,
          isTrace ev = true ∧ fingerprint XXH64 ev = e.1 ∧ e.2 = (ev.headD []).take 25 := by
  have hv : (processLines XXH64 State.init
      (sampleTrace 1 ++ sampleTrace 2 ++ [sampleInfo])).map (fun s => s.CACHE)
      = some [(fingerprint XXH64 (sampleTrace 1), str "[2024-01-01 00:00:01] ERR")] := by
    set_option maxRecDepth 100000 in decide
  cases hs : processLines XXH64 State.init (sampleTrace 1 ++ sampleTrace 2 ++ [sampleInfo]) with
  | none => rw [hs] at hv; cases hv
  | some s =>
    rw [hs] at hv
    simp only [Option.map_some', Option.some.injEq] at hv
    exact ⟨s, rfl, hv, cache_invariant XXH64 _ s hs⟩

/-! ## The regular expressions -/

namespace Regexp

theorem lang_fail (w : Bytes) : ¬ Lang fail w := by
  intro h
  cases h

theorem lang_eps_iff (w : Bytes) : Lang eps w ↔ w = [] := by
  constructor
  · intro h
    cases h
    rfl
  · rintro rfl
    exact Lang.eps

theorem lang_cls_iff (p : UInt8 → Bool) (w : Bytes) :
    Lang (cls p) w ↔ ∃ c, w = [c] ∧ p c = true := by
  constructor
  · intro h
    cases h with
    | cls _ c hc => exact ⟨c, rfl, hc⟩
  · rintro ⟨c, rfl, hc⟩
    exact Lang.cls p c hc

theorem lang_cat_iff (a b : Regexp) (w : Bytes) :
    Lang (cat a b) w ↔ ∃ u v, w = u ++ v ∧ Lang a u ∧ Lang b v := by
  constructor
  · intro h
    cases h with
    | cat ha hb => exact ⟨_, _, rfl, ha, hb⟩
  · rintro ⟨u, v, rfl, ha, hb⟩
    exact Lang.cat ha hb

theorem lang_alt_iff (a b : Regexp) (w : Bytes) :
    Lang (alt a b) w ↔ Lang a w ∨ Lang b w := by
  constructor
  · intro h
    cases h with
    | altl ha => exact Or.inl ha
    | altr hb => exact Or.inr hb
  · rintro (h | h)
    · exact Lang.altl h
    · exact Lang.altr h

theorem nullable_iff (r : Regexp) : nullable r = true ↔ Lang r [] := by
  induction r with
  | fail => simp [nullable, lang_fail]
  | eps => simp [nullable, lang_eps_iff]
  | cls p => simp [nullable, lang_cls_iff]
  | cat a b iha ihb =>
    simp only [nullable, Bool.and_eq_true, iha, ihb, lang_cat_iff]
    constructor
    · rintro ⟨ha, hb⟩
      exact ⟨[], [], rfl, ha, hb⟩
    · rintro ⟨u, v, huv, ha, hb⟩
      have hu : u = [] := (List.append_eq_nil.mp huv.symm).1
      have hv : v = [] := (List.append_eq_nil.mp huv.symm).2
      subst hu hv
      exact ⟨ha, hb⟩
  | alt a b iha ihb => simp only [nullable, Bool.or_eq_true, iha, ihb, lang_alt_iff]
  | star a _ =>
    simp only [nullable, true_iff]
    exact Lang.starNil

theorem lang_mkCat (a b : Regexp) (w : Bytes) : Lang (mkCat a b) w ↔ Lang (cat a b) w := by
  cases a with
  | fail =>
    simp only [mkCat, lang_cat_iff]
    constructor
    · intro h
      exact absurd h (lang_fail w)
    · rintro ⟨u, v, -, h, -⟩
      exact absurd h (lang_fail u)
  | eps =>
    simp only [mkCat, lang_cat_iff, lang_eps_iff]
    constructor
    · intro h
      exact ⟨[], w, rfl, rfl, h⟩
    · rintro ⟨u, v, rfl, rfl, h⟩
      exact h
  | cls p => rfl
  | cat x y => rfl
  | alt x y => rfl
  | star x => rfl

theorem lang_mkAlt (a b : Regexp) (w : Bytes) : Lang (mkAlt a b) w ↔ Lang a w ∨ Lang b w := by
  have hb : ∀ a' : Regexp, (Lang (mkAlt a' b) w ↔ Lang (alt a' b) w ∨ (b = fail ∧ Lang a' w)) →
      (Lang (mkAlt a' b) w ↔ Lang a' w ∨ Lang b w) := by
    intro a' h
    rw [h, lang_alt_iff]
    constructor
    · rintro (h | ⟨-, h⟩)
      · exact h
      · exact Or.inl h
    · intro h
      exact Or.inl h
  cases a with
  | fail =>
    simp only [mkAlt]
    constructor
    · intro h
      exact Or.inr h
    · rintro (h | h)
      · exact absurd h (lang_fail w)
      · exact h
  | eps =>
    apply hb
    cases b <;> simp [mkAlt, lang_alt_iff, lang_fail]
  | cls p =>
    apply hb
    cases b <;> simp [mkAlt, lang_alt_iff, lang_fail]
  | cat x y =>
    apply hb
    cases b <;> simp [mkAlt, lang_alt_iff, lang_fail]
  | alt x y =>
    apply hb
    cases b <;> simp [mkAlt, lang_alt_iff, lang_fail]
  | star x =>
    apply hb
    cases b <;> simp [mkAlt, lang_alt_iff, lang_fail]

theorem lang_star_cons (a : Regexp) (s : Bytes) (h : Lang (star a) s) :
    ∀ c w, s = c :: w → ∃ u v, w = u ++ v ∧ Lang a (c :: u) ∧ Lang (star a) v := by
  generalize hr : star a = r at h
  induction h with
  | eps => cases hr
  | cls p c hc => cases hr
  | cat _ _ _ _ => cases hr
  | altl _ _ => cases hr
  | altr _ _ => cases hr
  | starNil =>
    intro c w hw
    cases hw
  | @starCons a' u v hu hv _ ihv =>
    cases hr
    intro c w hw
    cases u with
    | nil => exact ihv rfl c w hw
    | cons d u =>
      simp only [List.cons_append, List.cons.injEq] at hw
      obtain ⟨rfl, rfl⟩ := hw
      exact ⟨u, v, rfl, hu, hv⟩

theorem lang_deriv (r : Regexp) (c : UInt8) (w : Bytes) :
    Lang (deriv r c) w ↔ Lang r (c :: w) := by
  induction r generalizing w with
  | fail => simp [deriv, lang_fail]
  | eps => simp [deriv, lang_fail, lang_eps_iff]
  | cls p =>
    simp only [deriv, lang_cls_iff]
    by_cases hp : p c = true
    · rw [if_pos hp, lang_eps_iff]
      constructor
      · rintro rfl
        exact ⟨c, rfl, hp⟩
      · rintro ⟨d, hd, -⟩
        simp only [List.cons.injEq] at hd
        exact hd.2
    · simp only [hp, Bool.false_eq_true, if_false]
      constructor
      · intro h
        exact absurd h (lang_fail w)
      · rintro ⟨d, hd, hpd⟩
        simp only [List.cons.injEq] at hd
        rw [← hd.1] at hpd
        exact absurd hpd hp
  | cat a b iha ihb =>
    have key : Lang (cat a b) (c :: w)
        ↔ (Lang a [] ∧ Lang b (c :: w)) ∨ ∃ u v, w = u ++ v ∧ Lang a (c :: u) ∧ Lang b v := by
      rw [lang_cat_iff]
      constructor
      · rintro ⟨u, v, huv, ha, hb⟩
        cases u with
        | nil =>
          simp only [List.nil_append] at huv
          subst huv
          exact Or.inl ⟨ha, hb⟩
        | cons d u =>
          simp only [List.cons_append, List.cons.injEq] at huv
          obtain ⟨rfl, rfl⟩ := huv
          exact Or.inr ⟨u, v, rfl, ha, hb⟩
      · rintro (⟨ha, hb⟩ | ⟨u, v, rfl, ha, hb⟩)
        · exact ⟨[], c :: w, rfl, ha, hb⟩
        · exact ⟨c :: u, v, rfl, ha, hb⟩
    have hcat : Lang (mkCat (deriv a c) b) w
        ↔ ∃ u v, w = u ++ v ∧ Lang a (c :: u) ∧ Lang b v := by
      rw [lang_mkCat, lang_cat_iff]
      constructor
      · rintro ⟨u, v, rfl, ha, hb⟩
        exact ⟨u, v, rfl, (iha u).mp ha, hb⟩
      · rintro ⟨u, v, rfl, ha, hb⟩
        exact ⟨u, v, rfl, (iha u).mpr ha, hb⟩
    rw [key]
    by_cases hn : nullable a = true
    · simp only [deriv, hn, if_true, lang_mkAlt, hcat, ihb]
      have := (nullable_iff a).mp hn
      constructor
      · rintro (h | h)
        · exact Or.inr h
        · exact Or.inl ⟨this, h⟩
      · rintro (⟨-, h⟩ | h)
        · exact Or.inr h
        · exact Or.inl h
    · simp only [deriv, hn, Bool.false_eq_true, if_false, hcat]
      have : ¬ Lang a [] := fun h => hn ((nullable_iff a).mpr h)
      constructor
      · intro h
        exact Or.inr h
      · rintro (⟨h, -⟩ | h)
        · exact absurd h this
        · exact h
  | alt a b iha ihb => simp only [deriv, lang_mkAlt, iha, ihb, lang_alt_iff]
  | star a iha =>
    simp only [deriv, lang_mkCat, lang_cat_iff]
    constructor
    · rintro ⟨u, v, rfl, ha, hs⟩
      exact Lang.starCons ((iha u).mp ha) hs
    · intro h
      obtain ⟨u, v, rfl, ha, hs⟩ := lang_star_cons a _ h c w rfl
      exact ⟨u, v, rfl, (iha u).mpr ha, hs⟩

/-- `Match` decides whether a prefix of the input is in the language. -/
theorem Match_iff (r : Regexp) (s : Bytes) :
    Match r s = true ↔ ∃ u v, s = u ++ v ∧ Lang r u := by
  induction s generalizing r with
  | nil =>
    simp only [Match, nullable_iff]
    constructor
    · intro h
      exact ⟨[], [], rfl, h⟩
    · rintro ⟨u, v, huv, h⟩
      have hu : u = [] := (List.append_eq_nil.mp huv.symm).1
      subst hu
      exact h
  | cons c cs ih =>
    simp only [Match, Bool.or_eq_true, nullable_iff, ih]
    constructor
    · rintro (h | ⟨u, v, rfl, h⟩)
      · exact ⟨[], c :: cs, rfl, h⟩
      · exact ⟨c :: u, v, rfl, (lang_deriv r c u).mp h⟩
    · rintro ⟨u, v, huv, h⟩
      cases u with
      | nil => exact Or.inl h
      | cons d u =>
        simp only [List.cons_append, List.cons.injEq] at huv
        obtain ⟨rfl, rfl⟩ := huv
        exact Or.inr ⟨u, v, rfl, (lang_deriv r c u).mpr h⟩

end Regexp
namespace Regexp

theorem lang_cat_assoc (a b c : Regexp) (w : Bytes) :
    Lang (cat (cat a b) c) w ↔ Lang (cat a (cat b c)) w := by
  simp only [lang_cat_iff]
  constructor
  · rintro ⟨u, v, rfl, ⟨u1, u2, rfl, ha, hb⟩, hc⟩
    exact ⟨u1, u2 ++ v, by simp, ha, u2, v, rfl, hb, hc⟩
  · rintro ⟨u, v, rfl, ha, u1, u2, rfl, hb, hc⟩
    exact ⟨u ++ u1, u2, by simp, ⟨u, u1, rfl, ha, hb⟩, hc⟩

theorem lang_eps_cat (r : Regexp) (w : Bytes) : Lang (cat eps r) w ↔ Lang r w := by
  simp only [lang_cat_iff, lang_eps_iff]
  constructor
  · rintro ⟨u, v, rfl, rfl, h⟩
    exact h
  · intro h
    exact ⟨[], w, rfl, rfl, h⟩

theorem lang_cls_cat (p : UInt8 → Bool) (r : Regexp) (w : Bytes) :
    Lang (cat (cls p) r) w ↔ ∃ c t, w = c :: t ∧ p c = true ∧ Lang r t := by
  simp only [lang_cat_iff, lang_cls_iff]
  constructor
  · rintro ⟨u, v, rfl, ⟨c, rfl, hc⟩, h⟩
    exact ⟨c, v, rfl, hc, h⟩
  · rintro ⟨c, t, rfl, hc, h⟩
    exact ⟨[c], t, rfl, ⟨c, rfl, hc⟩, h⟩

theorem Match_append (r : Regexp) (p t : Bytes) (h : Match r p = true) :
    Match r (p ++ t) = true := by
  rw [Match_iff] at h ⊢
  obtain ⟨u, v, rfl, hu⟩ := h
  exact ⟨u, v ++ t, by simp, hu⟩

end Regexp

/-- The language of the pattern of line 64: the strings of 11 bytes
`[dddd-dd-dd`. -/
theorem lang_linestart (u : Bytes) :
    Regexp.Lang linestart u ↔
      ∃ y1 y2 y3 y4 m1 m2 d1 d2,
        u = [91, y1, y2, y3, y4, 45, m1, m2, 45, d1, d2] ∧
        isDigit y1 = true ∧ isDigit y2 = true ∧ isDigit y3 = true ∧ isDigit y4 = true ∧
        isDigit m1 = true ∧ isDigit m2 = true ∧ isDigit d1 = true ∧ isDigit d2 = true := by
  simp only [linestart, Regexp.rep, Regexp.lit, Regexp.lang_cat_assoc, Regexp.lang_eps_cat,
    Regexp.lang_cls_cat, Regexp.lang_eps_iff, beq_iff_eq]
  constructor
  · rintro ⟨c0, t0, rfl, rfl, y1, t1, rfl, h1, y2, t2, rfl, h2, y3, t3, rfl, h3, y4, t4, rfl, h4,
      c5, t5, rfl, rfl, m1, t6, rfl, h6, m2, t7, rfl, h7, c8, t8, rfl, rfl,
      d1, t9, rfl, h9, d2, t10, rfl, h10, rfl⟩
    exact ⟨y1, y2, y3, y4, m1, m2, d1, d2, rfl, h1, h2, h3, h4, h6, h7, h9, h10⟩
  · rintro ⟨y1, y2, y3, y4, m1, m2, d1, d2, rfl, h1, h2, h3, h4, h6, h7, h9, h10⟩
    exact ⟨91, _, rfl, rfl, y1, _, rfl, h1, y2, _, rfl, h2, y3, _, rfl, h3, y4, _, rfl, h4,
      45, _, rfl, rfl, m1, _, rfl, h6, m2, _, rfl, h7, 45, _, rfl, rfl,
      d1, _, rfl, h9, d2, _, rfl, h10, rfl⟩

theorem lineStart_iff_aux (line : Bytes) :
    lineStart line = true ↔
      ∃ y1 y2 y3 y4 m1 m2 d1 d2 rest,
        line = 91 :: y1 :: y2 :: y3 :: y4 :: 45 :: m1 :: m2 :: 45 :: d1 :: d2 :: rest ∧
        isDigit y1 = true ∧ isDigit y2 = true ∧ isDigit y3 = true ∧ isDigit y4 = true ∧
        isDigit m1 = true ∧ isDigit m2 = true ∧ isDigit d1 = true ∧ isDigit d2 = true := by
  unfold lineStart
  rw [Regexp.Match_iff]
  constructor
  · rintro ⟨u, v, rfl, hu⟩
    obtain ⟨y1, y2, y3, y4, m1, m2, d1, d2, rfl, h⟩ := (lang_linestart u).mp hu
    exact ⟨y1, y2, y3, y4, m1, m2, d1, d2, v, rfl, h⟩
  · rintro ⟨y1, y2, y3, y4, m1, m2, d1, d2, rest, rfl, h⟩
    exact ⟨[91, y1, y2, y3, y4, 45, m1, m2, 45, d1, d2], rest, rfl,
      (lang_linestart _).mpr ⟨y1, y2, y3, y4, m1, m2, d1, d2, rfl, h⟩⟩

/-- C16 (start-of-event pattern).  `lineStart` holds exactly for the lines
that begin with the 11 bytes `[`, four digits, `-`, two digits, `-`, two
digits, a digit being a byte of `0`-`9`; what follows is free; a line that
matches has at least 11 bytes, and a line whose first byte is not `[` does not
match. -/
theorem lineStart_iff (line : Bytes) :
    (lineStart line = true ↔
      ∃ y1 y2 y3 y4 m1 m2 d1 d2 rest,
        line = 91 :: y1 :: y2 :: y3 :: y4 :: 45 :: m1 :: m2 :: 45 :: d1 :: d2 :: rest ∧
        isDigit y1 = true ∧ isDigit y2 = true ∧ isDigit y3 = true ∧ isDigit y4 = true ∧
        isDigit m1 = true ∧ isDigit m2 = true ∧ isDigit d1 = true ∧ isDigit d2 = true) ∧
    (∀ c : UInt8, isDigit c = true ↔ 48 ≤ c ∧ c ≤ 57) ∧
    (lineStart line = true → 11 ≤ line.length) ∧
    (∀ c rest, line = c :: rest → c ≠ 91 → lineStart line = false) := by
  refine ⟨lineStart_iff_aux line, ?_, ?_, ?_⟩
  · intro c
    simp [isDigit]
  · intro h
    obtain ⟨y1, y2, y3, y4, m1, m2, d1, d2, rest, rfl, -⟩ := (lineStart_iff_aux line).mp h
    simp
  · intro c rest hl hc
    rw [Bool.eq_false_iff]
    intro h
    obtain ⟨y1, y2, y3, y4, m1, m2, d1, d2, rest', hl', -⟩ := (lineStart_iff_aux line).mp h
    rw [hl] at hl'
    simp only [List.cons.injEq] at hl'
    exact hc hl'.1

theorem startIndex_first_indented (l0 l1 b : Bytes) (mid bs : List Bytes)
    (hmid : ∀ v ∈ mid, checkIndentedLine v = false) (hb : checkIndentedLine b = true) :
    startIndex (l0 :: l1 :: (mid ++ b :: bs)) = mid.length + 2 := by
  unfold startIndex
  simp only [List.drop_succ_cons, List.drop_zero]
  rw [scanIndented_skip mid (b :: bs) 0 2 hmid]
  simp [scanIndented, hb]

theorem checkIndentedLine_iff_aux (line : Bytes) :
    checkIndentedLine line = true ↔ ∃ c rest, line = c :: rest ∧ isSpace c = true := by
  unfold checkIndentedLine indentedline Regexp.plus
  rw [Regexp.Match_iff]
  constructor
  · rintro ⟨u, v, rfl, hu⟩
    obtain ⟨c, t, rfl, hc, -⟩ := (Regexp.lang_cls_cat _ _ _).mp hu
    exact ⟨c, t ++ v, rfl, hc⟩
  · rintro ⟨c, rest, rfl, hc⟩
    exact ⟨[c], rest, rfl, (Regexp.lang_cls_cat _ _ _).mpr ⟨c, [], rfl, hc, Regexp.Lang.starNil⟩⟩

/-- C18 (indentation test).  `checkIndentedLine` holds exactly for the
non-empty lines whose first byte is a space, tab, line feed, carriage return or
form feed.  So the lines `\n` and `\r\n` pass and the empty string does not,
and a blank line after non-indented lines is where the trace body starts. -/
theorem checkIndentedLine_iff (line : Bytes) :
    (checkIndentedLine line = true ↔
      ∃ c rest, line = c :: rest ∧ (c = 32 ∨ c = 9 ∨ c = 10 ∨ c = 13 ∨ c = 12)) ∧
    checkIndentedLine (str "\n") = true ∧ checkIndentedLine (str "\r\n") = true ∧
    checkIndentedLine [] = false ∧
    (∀ (l0 l1 : Bytes) (mid bs : List Bytes),
      (∀ v ∈ mid, checkIndentedLine v = false) →
      startIndex (l0 :: l1 :: (mid ++ str "\n" :: bs)) = mid.length + 2) := by
  refine ⟨?_, by decide, by decide, by decide, ?_⟩
  · rw [checkIndentedLine_iff_aux]
    constructor
    · rintro ⟨c, rest, rfl, hc⟩
      refine ⟨c, rest, rfl, ?_⟩
      simp only [isSpace, Bool.or_eq_true, beq_iff_eq] at hc
      tauto
    · rintro ⟨c, rest, rfl, hc⟩
      refine ⟨c, rest, rfl, ?_⟩
      simp only [isSpace, Bool.or_eq_true, beq_iff_eq]
      tauto
  · intro l0 l1 mid bs hmid
    exact startIndex_first_indented l0 l1 (str "\n") mid bs hmid (by decide)
namespace Regexp

theorem lang_star_flatten (r : Regexp) (w : Bytes) :
    Lang (star r) w ↔ ∃ ws : List Bytes, w = ws.flatten ∧ ∀ x ∈ ws, Lang r x := by
  constructor
  · intro h
    generalize hr : star r = q at h
    induction h with
    | eps => cases hr
    | cls p c hc => cases hr
    | cat _ _ _ _ => cases hr
    | altl _ _ => cases hr
    | altr _ _ => cases hr
    | starNil => exact ⟨[], rfl, fun _ hx => by cases hx⟩
    | @starCons a u v hu _ _ ihv =>
      cases hr
      obtain ⟨ws, rfl, hws⟩ := ihv rfl
      refine ⟨u :: ws, by simp, ?_⟩
      intro x hx
      rcases List.mem_cons.mp hx with rfl | hx
      · exact hu
      · exact hws x hx
  · rintro ⟨ws, rfl, hws⟩
    induction ws with
    | nil => exact Lang.starNil
    | cons x ws ih =>
      rw [List.flatten_cons]
      exact Lang.starCons (hws x (List.mem_cons_self _ _))
        (ih (fun y hy => hws y (List.mem_cons_of_mem _ hy)))

theorem lang_plus_flatten (r : Regexp) (w : Bytes) :
    Lang (plus r) w ↔ ∃ ws : List Bytes, ws ≠ [] ∧ w = ws.flatten ∧ ∀ x ∈ ws, Lang r x := by
  unfold plus
  rw [lang_cat_iff]
  constructor
  · rintro ⟨u, v, rfl, hu, hv⟩
    obtain ⟨ws, rfl, hws⟩ := (lang_star_flatten r v).mp hv
    refine ⟨u :: ws, by simp, by simp, ?_⟩
    intro x hx
    rcases List.mem_cons.mp hx with rfl | hx
    · exact hu
    · exact hws x hx
  · rintro ⟨ws, hne, rfl, hws⟩
    cases ws with
    | nil => exact absurd rfl hne
    | cons x ws =>
      exact ⟨x, ws.flatten, by simp, hws x (List.mem_cons_self _ _),
        (lang_star_flatten r _).mpr ⟨ws, rfl, fun y hy => hws y (List.mem_cons_of_mem _ hy)⟩⟩

theorem lang_plus_cls (p : UInt8 → Bool) (w : Bytes) :
    Lang (plus (cls p)) w ↔ w ≠ [] ∧ ∀ c ∈ w, p c = true := by
  rw [lang_plus_flatten]
  constructor
  · rintro ⟨ws, hne, rfl, hws⟩
    constructor
    · cases ws with
      | nil => exact absurd rfl hne
      | cons x ws =>
        obtain ⟨c, rfl, -⟩ := (lang_cls_iff p x).mp (hws x (List.mem_cons_self _ _))
        simp
    · intro c hc
      obtain ⟨x, hx, hcx⟩ := List.mem_flatten.mp hc
      obtain ⟨d, rfl, hd⟩ := (lang_cls_iff p x).mp (hws x hx)
      simp only [List.mem_singleton] at hcx
      rw [hcx]
      exact hd
  · rintro ⟨hne, hw⟩
    refine ⟨w.map (fun c => [c]), ?_, ?_, ?_⟩
    · cases w with
      | nil => exact absurd rfl hne
      | cons c w => simp
    · clear hne hw
      induction w with
      | nil => rfl
      | cons c w ih => simp [← ih]
    · intro x hx
      obtain ⟨c, hc, rfl⟩ := List.mem_map.mp hx
      exact (lang_cls_iff p [c]).mpr ⟨c, rfl, hw c hc⟩

end Regexp

theorem exists_map_of_forall {α β : Type} (f : α → β) (Q : α → Prop) (ys : List β)
    (h : ∀ y ∈ ys, ∃ x, Q x ∧ y = f x) : ∃ xs : List α, ys = xs.map f ∧ ∀ x ∈ xs, Q x := by
  induction ys with
  | nil => exact ⟨[], rfl, fun _ hx => by cases hx⟩
  | cons y ys ih =>
    obtain ⟨x, hx, rfl⟩ := h y (List.mem_cons_self _ _)
    obtain ⟨xs, rfl, hxs⟩ := ih (fun z hz => h z (List.mem_cons_of_mem _ hz))
    refine ⟨x :: xs, rfl, ?_⟩
    intro z hz
    rcases List.mem_cons.mp hz with rfl | hz
    · exact hx
    · exact hxs z hz

/-- One segment of the pattern of line 70: a non-empty run of segment bytes
and a dot. -/
theorem lang_segment (x : Bytes) :
    Regexp.Lang (.cat (.plus (.cls isSegmentByte)) (.lit 46)) x ↔
      ∃ seg : Bytes, (seg ≠ [] ∧ ∀ c ∈ seg, isSegmentByte c = true) ∧ x = seg ++ [46] := by
  simp only [Regexp.lang_cat_iff, Regexp.lang_plus_cls, Regexp.lit, Regexp.lang_cls_iff,
    beq_iff_eq]
  constructor
  · rintro ⟨u, v, rfl, hu, c, rfl, rfl⟩
    exact ⟨u, hu, rfl⟩
  · rintro ⟨seg, hseg, rfl⟩
    exact ⟨seg, [46], rfl, hseg, 46, rfl, rfl⟩

theorem javaclass_eq :
    javaclass = .cat (.plus (.cat (.plus (.cls isSegmentByte)) (.lit 46)))
      (.plus (.cls isClassByte)) := rfl

theorem checkJavaClass_iff_aux (s : Bytes) :
    checkJavaClass s = true ↔
      ∃ (segs : List Bytes) (c : UInt8) (rest : Bytes),
        segs ≠ [] ∧ (∀ seg ∈ segs, seg ≠ [] ∧ ∀ x ∈ seg, isSegmentByte x = true) ∧
        isClassByte c = true ∧
        s = (segs.map (fun seg => seg ++ [46])).flatten ++ c :: rest := by
  unfold checkJavaClass
  rw [Regexp.Match_iff, javaclass_eq]
  constructor
  · rintro ⟨u, v, rfl, hu⟩
    obtain ⟨u1, u2, rfl, h1, h2⟩ := (Regexp.lang_cat_iff _ _ _).mp hu
    obtain ⟨ws, hne, rfl, hws⟩ := (Regexp.lang_plus_flatten _ _).mp h1
    obtain ⟨hne2, hall2⟩ := (Regexp.lang_plus_cls _ _).mp h2
    obtain ⟨segs, rfl, hsegs⟩ := exists_map_of_forall (fun seg : Bytes => seg ++ [46])
      (fun seg => seg ≠ [] ∧ ∀ c ∈ seg, isSegmentByte c = true) ws
      (fun y hy => (lang_segment y).mp (hws y hy))
    cases u2 with
    | nil => exact absurd rfl hne2
    | cons c u2 =>
      refine ⟨segs, c, u2 ++ v, ?_, hsegs, hall2 c (List.mem_cons_self _ _), by simp⟩
      intro he
      rw [he] at hne
      exact hne rfl
  · rintro ⟨segs, c, rest, hne, hsegs, hc, rfl⟩
    refine ⟨(segs.map (fun seg => seg ++ [46])).flatten ++ [c], rest, by simp, ?_⟩
    refine (Regexp.lang_cat_iff _ _ _).mpr ⟨_, [c], rfl, ?_, ?_⟩
    · refine (Regexp.lang_plus_flatten _ _).mpr ⟨_, ?_, rfl, ?_⟩
      · cases segs with
        | nil => exact absurd rfl hne
        | cons a segs => simp
      · intro x hx
        obtain ⟨seg, hseg, rfl⟩ := List.mem_map.mp hx
        exact (lang_segment _).mpr ⟨seg, hsegs seg hseg, rfl⟩
    · refine (Regexp.lang_plus_cls _ _).mpr ⟨by simp, ?_⟩
      intro d hd
      simp only [List.mem_singleton] at hd
      rw [hd]
      exact hc

/-- C17 (qualified-class-name shape).  `checkJavaClass` holds exactly for the
lines that begin with one or more segments, each a non-empty run of bytes of
`[a-zA-Z0-9-]` followed by a dot, and then a byte of `[A-Za-z0-9$]`.  The match
is anchored at the start only: `java.lang.NullPointerException` passes, and so
does every line that extends a line that passes; a line without a dot, or one
that begins with whitespace, does not. -/
theorem checkJavaClass_iff (s : Bytes) :
    (checkJavaClass s = true ↔
      ∃ (segs : List Bytes) (c : UInt8) (rest : Bytes),
        segs ≠ [] ∧ (∀ seg ∈ segs, seg ≠ [] ∧ ∀ x ∈ seg, isSegmentByte x = true) ∧
        isClassByte c = true ∧
        s = (segs.map (fun seg => seg ++ [46])).flatten ++ c :: rest) ∧
    checkJavaClass (str "java.lang.NullPointerException") = true ∧
    (∀ t, checkJavaClass s = true → checkJavaClass (s ++ t) = true) ∧
    (46 ∉ s → checkJavaClass s = false) ∧
    (∀ c rest, s = c :: rest → isSpace c = true → checkJavaClass s = false) := by
  refine ⟨checkJavaClass_iff_aux s, by decide, ?_, ?_, ?_⟩
  · intro t h
    exact Regexp.Match_append javaclass s t h
  · intro hdot
    rw [Bool.eq_false_iff]
    intro h
    obtain ⟨segs, c, rest, hne, -, -, rfl⟩ := (checkJavaClass_iff_aux s).mp h
    apply hdot
    cases segs with
    | nil => exact absurd rfl hne
    | cons a segs => simp
  · intro c rest hs hc
    rw [Bool.eq_false_iff]
    intro h
    obtain ⟨segs, d, rest', hne, hsegs, -, hs'⟩ := (checkJavaClass_iff_aux s).mp h
    cases segs with
    | nil => exact absurd rfl hne
    | cons a segs =>
      obtain ⟨ha, hall⟩ := hsegs a (List.mem_cons_self _ _)
      cases a with
      | nil => exact absurd rfl ha
      | cons x a =>
        rw [hs] at hs'
        simp only [List.map_cons, List.flatten_cons, List.cons_append, List.cons.injEq] at hs'
        have hx := hall x (List.mem_cons_self _ _)
        rw [← hs'.1] at hx
        simp only [isSpace, Bool.or_eq_true, beq_iff_eq] at hc
        rcases hc with (((rfl | rfl) | rfl) | rfl) | rfl <;> exact absurd hx (by decide)

end CollapseLog
